import Mathlib

/-!
# Verification of the fox slot-pool allocator

Shallow embedding of `fox::inplace_free_list<T, Capacity>` (the fixed-capacity
slot arena, `src/include/fox/inplace_free_list.hpp`) and `fox::free_list<T,
ChunkCapacity>` (the chunked pool).  Each slot of the arena holds either a live
value or a free-chain link (the C++ reuses the slot's raw bytes for the link;
following the design note of the spec this is modelled as a sum type).  Link
values are modelled as `Option Nat`: `none` stands for the sentinel
`offset_type_npos` and `some k` for the raw link value `k`; this is faithful
because the C++ statically asserts `Capacity < offset_type_npos`, so every raw
link value other than the sentinel that the code ever stores is `≤ Capacity`.
The unbounded chain walks of the C++ (`free_mask`, copy/move loops) are
modelled with explicit fuel; a walk that would not terminate in the C++ (a
cyclic or broken chain, undefined behaviour there) yields `none`.
-/

set_option maxRecDepth 4000

namespace Fox

/-- One slot of the arena: it holds either a live value (occupied) or the
free-chain link stored in the slot's bytes (free).  `free none` is a slot
whose link is the sentinel `offset_type_npos`. -/
inductive Slot (α : Type) where
  | val : α → Slot α
  | free : Option Nat → Slot α
deriving DecidableEq, Repr

/-- The link stored in a slot; reading the link of an occupied slot is
undefined behaviour in the C++ and yields the sentinel here. -/
def slotNext : Slot α → Option Nat
  | .val _ => none
  | .free n => n

/-- The value stored in a slot, if occupied. -/
def slotVal : Slot α → Option α
  | .val v => some v
  | .free _ => none

/-- Whether the slot is a free-chain record (not occupied). -/
def isFreeSlot : Slot α → Bool
  | .val _ => false
  | .free _ => true

/-- `fox::inplace_free_list<T, Capacity>`: `storage_` is the slot array
(`Capacity` slots), `first_free_` the head of the intrusive free chain
(`none` = `offset_type_npos`, i.e. full), `size_` the occupied count. -/
structure inplace_free_list (α : Type) where
  storage_ : List (Slot α)
  first_free_ : Option Nat
  size_ : Nat
deriving DecidableEq, Repr

namespace inplace_free_list

/-- `capacity()`: the template parameter `Capacity` = number of slots. -/
def capacity (a : inplace_free_list α) : Nat := a.storage_.length

/-- `size()`. -/
def size (a : inplace_free_list α) : Nat := a.size_

/-- `empty()`. -/
def empty (a : inplace_free_list α) : Bool := a.size = 0

/-- `full()`: `first_free_ == offset_type_npos`. -/
def full (a : inplace_free_list α) : Bool := a.first_free_.isNone

/-- Walk of the free chain starting at a given link.  Returns the list of
visited indices, or `none` if the walk leaves the storage, runs onto an
occupied slot, or does not finish within `fuel` steps (all of which are
undefined behaviour in the C++, whose walk is unbounded). -/
def chainWalk (storage : List (Slot α)) : Option Nat → Nat → Option (List Nat)
  | none, _ => some []
  | some _, 0 => none
  | some i, fuel + 1 =>
      match storage[i]? with
      | some (Slot.free nxt) => (chainWalk storage nxt fuel).map (fun l => i :: l)
      | some (Slot.val _) => none
      | none => none

/-- The free chain of the arena, as walked from `first_free_` (fuel
`capacity + 1` is enough for every well-formed chain). -/
def freeChain (a : inplace_free_list α) : List Nat :=
  (chainWalk a.storage_ a.first_free_ (a.capacity + 1)).getD []

/-- `free_mask()`: one bit per slot, set iff the slot is on the free chain. -/
def free_mask (a : inplace_free_list α) : List Bool :=
  (List.range a.capacity).map (fun i => decide (i ∈ freeChain a))

/-- Well-formedness: the free-chain walk terminates properly, visits each
slot at most once, visits exactly the slots whose bytes hold a link record,
and `size_ + (length of free chain) = Capacity` (the `count` invariant of
the spec). -/
def WF (a : inplace_free_list α) : Prop :=
  chainWalk a.storage_ a.first_free_ (a.capacity + 1) ≠ none ∧
  (freeChain a).Nodup ∧
  (∀ i ∈ List.range a.capacity,
    isFreeSlot (a.storage_.getD i (Slot.free none)) = decide (i ∈ freeChain a)) ∧
  a.size_ + (freeChain a).length = a.capacity

instance (a : inplace_free_list α) : Decidable (WF a) := by
  unfold WF; infer_instance

/-- `initialize_empty()` (private helper used by the default constructor,
`clear`, and the moved-from state): every slot becomes a link to its
successor, the last slot gets the sentinel, `first_free_ = 0`, `size_ = 0`. -/
def init_empty (α : Type) (cap : Nat) : inplace_free_list α :=
  { storage_ := (List.range cap).map
      (fun i => Slot.free (if i = cap - 1 then none else some (i + 1)))
    first_free_ := some 0
    size_ := 0 }

/-- `emplace(args...)`: if `first_free_` is the sentinel return null
(`none`); otherwise pop the chain head, construct the value there, increment
`size_`, and return the slot (as its index). -/
def emplace (a : inplace_free_list α) (v : α) : Option (inplace_free_list α × Nat) :=
  match a.first_free_ with
  | none => none
  | some i =>
      some ({ storage_ := a.storage_.set i (Slot.val v)
              first_free_ := slotNext (a.storage_.getD i (Slot.free none))
              size_ := a.size_ + 1 }, i)

/-- `erase(ptr)` with the slot given by its index (the C++ receives the
address; per the spec's design notes address identity is re-expressed as a
logical index): destroy the value, store the old `first_free_` as the slot's
link, point `first_free_` at the slot, decrement `size_`. -/
def erase (a : inplace_free_list α) (i : Nat) : inplace_free_list α :=
  { storage_ := a.storage_.set i (Slot.free a.first_free_)
    first_free_ := some i
    size_ := a.size_ - 1 }

/-- `owns(ptr)` for the slot `data() + idx`: an address-range test,
equivalent to `idx < Capacity`. -/
def owns (a : inplace_free_list α) (idx : Nat) : Bool := idx < a.capacity

/-- `holds_value_at(idx)`: `!free_mask().test(idx)`. -/
def holds_value_at (a : inplace_free_list α) (idx : Nat) : Bool :=
  !(free_mask a).getD idx false

/-- `at(idx)`: throws `std::out_of_range` (modelled as `none`) when the index
is not owned or the slot does not hold a value; otherwise yields the value. -/
def at_idx (a : inplace_free_list α) (idx : Nat) : Option α :=
  if idx < a.capacity then
    if idx ∈ freeChain a then none
    else slotVal (a.storage_.getD idx (Slot.free none))
  else none

/-- `sort()` inner pass: for `rev_idx = Capacity-1` down to `0`, if the slot
is free (per the mask) rewrite its link to the previously visited free slot;
the loop accumulates the new chain head. -/
def sortPass (mask : List Bool) :
    List Nat → List (Slot α) → Option Nat → List (Slot α) × Option Nat
  | [], storage, nxt => (storage, nxt)
  | i :: rest, storage, nxt =>
      if mask.getD i false then
        sortPass mask rest (storage.set i (Slot.free nxt)) (some i)
      else
        sortPass mask rest storage nxt

/-- `sort()`: rewrites the links of the free slots so the chain visits them
in ascending index order; occupied values are not moved. -/
def sort (a : inplace_free_list α) : inplace_free_list α :=
  let p := sortPass (free_mask a) (List.range a.capacity).reverse a.storage_ none
  { storage_ := p.1, first_free_ := p.2, size_ := a.size_ }

/-- State of the `optimize_at` two-cursor loop: the storage, the
`first_free_` member, the local `mask` bitset, the callback invocations
recorded so far, and the two cursors. -/
structure OptSt (α : Type) where
  storage : List (Slot α)
  firstFree : Option Nat
  mask : List Bool
  calls : List (Nat × Nat)
  left : Nat
  right : Nat
deriving DecidableEq, Repr

/-- One `while (left < right)` loop of `optimize_at`, with fuel (each
iteration advances `left`, retreats `right`, or turns `mask[left]` off, so
`2 * Capacity` iterations always suffice). -/
def optLoop : Nat → OptSt α → OptSt α
  | 0, s => s
  | fuel + 1, s =>
      if s.left < s.right then
        if s.mask.getD s.left false then
          if s.mask.getD s.right false then
            optLoop fuel { s with
              storage := s.storage.set s.right (Slot.free (some (s.right + 1)))
              right := s.right - 1 }
          else
            optLoop fuel { s with
              storage := (s.storage.set s.left (s.storage.getD s.right (Slot.free none))).set
                s.right (Slot.free (some (s.right + 1)))
              calls := s.calls ++ [(s.right, s.left)]
              mask := (s.mask.set s.left false).set s.right true
              firstFree := some s.right }
        else
          optLoop fuel { s with left := s.left + 1 }
      else s

/-- `optimize_at(cb)`: computes the free mask, runs the two-cursor loop from
`left = 0`, `right = Capacity - 1`, then patches `first_free_` and the two
boundary links exactly as the code does after the loop.  Returns the new
arena and the list of `(from, to)` callback invocations in order. -/
def optimize_at (a : inplace_free_list α) : inplace_free_list α × List (Nat × Nat) :=
  let cap := a.capacity
  let s0 : OptSt α :=
    { storage := a.storage_, firstFree := a.first_free_, mask := free_mask a
      calls := [], left := 0, right := cap - 1 }
  let s := optLoop (2 * cap + 1) s0
  let s1 := if s.mask.getD s.right false then
      { s with firstFree := some s.right
               storage := s.storage.set s.right (Slot.free (some (s.right + 1))) }
    else s
  let s2 := if s1.mask.getD (cap - 1) false then
      { s1 with storage := s1.storage.set (cap - 1) (Slot.free none) }
    else s1
  ({ storage_ := s2.storage, first_free_ := s2.firstFree, size_ := a.size_ }, s2.calls)

/-- The move constructor / move assignment: the destination takes the
source's state (`initialize_move`), and the source is re-initialized to the
freshly constructed empty state (`other.initialize_empty()`). -/
def move_from (other : inplace_free_list α) :
    inplace_free_list α × inplace_free_list α :=
  ({ storage_ := other.storage_, first_free_ := other.first_free_, size_ := other.size_ },
   init_empty α other.capacity)

/-- The state left behind when the construction of the value throws inside
`emplace` on a non-full arena: the code pops `first_free_` to the head's
link *before* `construct_at`, and `size_ = size_ + 1` is never reached, so
on an exception the popped slot is on neither the chain nor the occupied
side. -/
def emplace_throw (a : inplace_free_list α) : inplace_free_list α :=
  match a.first_free_ with
  | none => a
  | some i =>
      { a with first_free_ := slotNext (a.storage_.getD i (Slot.free none)) }

end inplace_free_list

/-- `offset_type` selection (`std::conditional_t<sizeof(T) == 1,
std::uint8_t, std::uint16_t>`), expressed as a bit width from the value
slot's byte size. -/
def offset_width (sizeofT : Nat) : Nat := if sizeofT = 1 then 8 else 16

/-- `offset_type_npos = std::numeric_limits<offset_type>::max()`. -/
def offset_npos (width : Nat) : Nat := 2 ^ width - 1

/-- Modelled from the spec: "The link value's width is the smallest unsigned
width that represents all indices `0..Capacity` plus the sentinel" — the
smallest standard unsigned width whose sentinel (its maximum value) exceeds
`Capacity`, so that indices `0..Capacity` and the sentinel are all distinct
representable values. -/
def smallest_offset_width (cap : Nat) : Nat :=
  if cap < 2 ^ 8 - 1 then 8
  else if cap < 2 ^ 16 - 1 then 16
  else if cap < 2 ^ 32 - 1 then 32
  else 64

/-- `fox::free_list<T, ChunkCapacity>`: an ordered collection of chunks,
each a `inplace_free_list<T, ChunkCapacity>`.  The chunk capacity is a
template parameter and is passed explicitly to the operations that use it. -/
structure free_list (α : Type) where
  chunks_ : List (inplace_free_list α)
deriving DecidableEq, Repr

namespace free_list

/-- A default chunk (only used to totalize list indexing; the C++ never
reads past the end of `chunks_`). -/
def dfltChunk (α : Type) : inplace_free_list α :=
  { storage_ := [], first_free_ := none, size_ := 0 }

/-- `capacity()`: `chunks_.size() * chunk_capacity()`. -/
def capacity (CC : Nat) (p : free_list α) : Nat := p.chunks_.length * CC

/-- `size()`: sum of the chunks' `size()`. -/
def size (p : free_list α) : Nat := (p.chunks_.map inplace_free_list.size).sum

/-- `empty()`. -/
def empty (p : free_list α) : Bool := p.size = 0

/-- `pack_index(chunk, position)`: `(chunk << 16) | position` (positions are
16-bit; `ChunkCapacity < 0xFFFF` is statically asserted). -/
def pack_index (chunk position : Nat) : Nat := chunk * 65536 + position

/-- `unpack_index(index)`: low 16 bits = position, next 16 bits = chunk. -/
def unpack_index (idx : Nat) : Nat × Nat := (idx / 65536 % 65536, idx % 65536)

/-- `shrink()` loop: `while (chunks_.back().empty()) pop_back();` with fuel
(the C++ calls `back()` on an empty vector - undefined behaviour - if every
chunk is empty; the model just stops). -/
def shrinkLoop : Nat → List (inplace_free_list α) → List (inplace_free_list α)
  | 0, chunks => chunks
  | fuel + 1, chunks =>
      match chunks.getLast? with
      | some c => if c.size = 0 then shrinkLoop fuel chunks.dropLast else chunks
      | none => chunks

/-- `shrink()`. -/
def shrink (p : free_list α) : free_list α :=
  ⟨shrinkLoop p.chunks_.length p.chunks_⟩

/-- `sort()`: sorts every chunk's free chain. -/
def sort (p : free_list α) : free_list α :=
  ⟨p.chunks_.map inplace_free_list.sort⟩

/-- `emplace(args...)`: find the first chunk that is not full, appending a
freshly constructed chunk if all are full, and delegate to its `emplace`.
The returned handle is reported as the `(chunk, offset)` pair the packed
index is built from. -/
def emplace (CC : Nat) (p : free_list α) (v : α) : free_list α × Option (Nat × Nat) :=
  match p.chunks_.findIdx? (fun c => !c.full) with
  | some k =>
      match (p.chunks_.getD k (dfltChunk α)).emplace v with
      | some (c', i) => (⟨p.chunks_.set k c'⟩, some (k, i))
      | none => (p, none)
  | none =>
      match (inplace_free_list.init_empty α CC).emplace v with
      | some (c', i) => (⟨p.chunks_ ++ [c']⟩, some (p.chunks_.length, i))
      | none => (⟨p.chunks_ ++ [inplace_free_list.init_empty α CC]⟩, none)

/-- `erase(ptr)` with the slot given as its `(chunk, offset)` pair (the C++
locates the owning chunk of the address by containment): delegate to the
chunk's `erase`; if the released chunk became empty and is the last chunk,
pop it. -/
def erase (p : free_list α) (k i : Nat) : free_list α :=
  let c' := (p.chunks_.getD k (dfltChunk α)).erase i
  let cs := p.chunks_.set k c'
  if c'.size = 0 ∧ k + 1 = cs.length then ⟨cs.dropLast⟩ else ⟨cs⟩

/-- The body of the inner `for (idx = 0; idx < ChunkCapacity; idx++)` drain
scan of `optimize_at`, iterating `rev_idx` over the given descending index
list: every occupied slot of chunk `cj` is copied into chunk `ci` (while
`ci` is not full), the source slot is erased, and the packed-index pair is
reported. -/
def drainScan (ci cj : Nat) :
    List Nat → List (inplace_free_list α) → List (Nat × Nat) →
      List (inplace_free_list α) × List (Nat × Nat)
  | [], chunks, calls => (chunks, calls)
  | rev :: rest, chunks, calls =>
      let cjA := chunks.getD cj (dfltChunk α)
      let ciA := chunks.getD ci (dfltChunk α)
      if cjA.holds_value_at rev ∧ ¬ ciA.full then
        match slotVal (cjA.storage_.getD rev (Slot.free none)) with
        | some v =>
            match ciA.emplace v with
            | some (ciA', di) =>
                drainScan ci cj rest
                  ((chunks.set ci ciA').set cj (cjA.erase rev))
                  (calls ++ [(pack_index cj rev, pack_index ci di)])
            | none => drainScan ci cj rest chunks calls
        | none => drainScan ci cj rest chunks calls
      else drainScan ci cj rest chunks calls

/-- The outer `while (chunk_i <= chunk_j && chunk_j > 0)` loop of the pool's
`optimize_at`, with fuel (every iteration advances `chunk_i`, retreats
`chunk_j`, or breaks). -/
def optLoopP (CC : Nat) : Nat → List (inplace_free_list α) → Nat → Nat →
    List (Nat × Nat) → List (inplace_free_list α) × List (Nat × Nat)
  | 0, chunks, _, _, calls => (chunks, calls)
  | fuel + 1, chunks, ci, cj, calls =>
      if ci ≤ cj ∧ 0 < cj then
        if (chunks.getD ci (dfltChunk α)).size = CC then
          optLoopP CC fuel chunks (ci + 1) cj calls
        else
          let chunks1 := chunks.set ci ((chunks.getD ci (dfltChunk α)).sort)
          if ci = cj then
            let r := (chunks1.getD ci (dfltChunk α)).optimize_at
            (chunks1.set ci r.1,
             calls ++ r.2.map (fun q => (pack_index ci q.1, pack_index ci q.2)))
          else
            let d := drainScan ci cj (List.range CC).reverse chunks1 calls
            let ci' := if (d.1.getD ci (dfltChunk α)).full then ci + 1 else ci
            let cj' := if (d.1.getD cj (dfltChunk α)).size = 0 then cj - 1 else cj
            optLoopP CC fuel d.1 ci' cj' d.2
      else (chunks, calls)

/-- `optimize_at(cb)` of the pool: run the two-level compaction loop from
`chunk_i = 0`, `chunk_j = chunks_.size() - 1`, then `shrink()`.  Returns the
new pool and the packed-index callback invocations in order. -/
def optimize_at (CC : Nat) (p : free_list α) : free_list α × List (Nat × Nat) :=
  let n := p.chunks_.length
  let r := optLoopP CC (2 * n + 2) p.chunks_ 0 (n - 1) []
  (shrink ⟨r.1⟩, r.2)

end free_list

/-! ## List helpers -/

theorem getD_set_self {β : Type _} (l : List β) (i : Nat) (x d : β) (h : i < l.length) :
    (l.set i x).getD i d = x := by
  rw [List.getD_eq_getElem?_getD, List.getElem?_set_self (by simpa using h)]
  rfl

theorem getD_set_ne {β : Type _} (l : List β) {i j : Nat} (x d : β) (h : i ≠ j) :
    (l.set i x).getD j d = l.getD j d := by
  rw [List.getD_eq_getElem?_getD, List.getElem?_set_ne h, ← List.getD_eq_getElem?_getD]

theorem getD_map_range {β : Type _} (n i : Nat) (f : Nat → β) (d : β) (h : i < n) :
    ((List.range n).map f).getD i d = f i := by
  rw [List.getD_eq_getElem?_getD, List.getElem?_map, List.getElem?_range h]
  rfl

/-- Counting elements of a list through a pointwise index description. -/
theorem countP_eq_range_filter {β : Type _} (p : β → Bool) :
    ∀ (l : List β) (g : Nat → Bool),
      (∀ i, (h : i < l.length) → p (l.get ⟨i, h⟩) = g i) →
      l.countP p = ((List.range l.length).filter g).length
  | [], g, _ => by simp
  | b :: t, g, hp => by
      have ht : t.countP p = ((List.range t.length).filter (fun i => g (i + 1))).length :=
        countP_eq_range_filter p t (fun i => g (i + 1)) (fun i h => hp (i + 1) (by simpa using h))
      have hrange : List.range (t.length + 1) = 0 :: (List.range t.length).map (· + 1) :=
        List.range_succ_eq_map t.length
      have hb : p b = g 0 := hp 0 (by simp)
      simp only [List.countP_cons, List.length_cons, hrange, List.filter_cons,
        List.filter_map, List.length_map, Function.comp_def]
      by_cases h0 : g 0 = true
      · simp [h0, hb, ht]
      · simp [h0, hb, ht]

theorem range_filter_le_length (n k : Nat) :
    ((List.range n).filter (fun i => decide (k ≤ i))).length = n - k := by
  induction n with
  | zero => simp
  | succ m ih =>
      rw [List.range_succ, List.filter_append]
      by_cases h : k ≤ m
      · simp [h, ih, Nat.sub_add_comm h]
      · have : m + 1 ≤ k := by omega
        simp [h, ih]
        omega

theorem range_filter_mem_length {l : List Nat} (n : Nat) (hn : l.Nodup)
    (hlt : ∀ x ∈ l, x < n) :
    ((List.range n).filter (fun i => decide (i ∈ l))).length = l.length := by
  have h1 : ((List.range n).filter (fun i => decide (i ∈ l))).Perm l := by
    refine (List.perm_ext_iff_of_nodup (List.Nodup.filter _ (List.nodup_range n)) hn).mpr ?_
    intro a
    simp only [List.mem_filter, List.mem_range, decide_eq_true_eq]
    exact ⟨fun h => h.2, fun h => ⟨hlt a h, h⟩⟩
  exact h1.length_eq

namespace inplace_free_list

/-! ## chainWalk lemmas -/

theorem chainWalk_none (storage : List (Slot α)) (fuel : Nat) :
    chainWalk storage none fuel = some [] := by
  cases fuel <;> rfl

theorem chainWalk_zero (storage : List (Slot α)) (i : Nat) :
    chainWalk storage (some i) 0 = none := rfl

theorem chainWalk_step_free {storage : List (Slot α)} {i : Nat} {nxt : Option Nat}
    (h : storage[i]? = some (Slot.free nxt)) (fuel : Nat) :
    chainWalk storage (some i) (fuel + 1) =
      (chainWalk storage nxt fuel).map (fun l => i :: l) := by
  simp only [chainWalk, h]

theorem chainWalk_step_val {storage : List (Slot α)} {i : Nat} {v : α}
    (h : storage[i]? = some (Slot.val v)) (fuel : Nat) :
    chainWalk storage (some i) (fuel + 1) = none := by
  simp only [chainWalk, h]

theorem chainWalk_step_oob {storage : List (Slot α)} {i : Nat}
    (h : storage[i]? = none) (fuel : Nat) :
    chainWalk storage (some i) (fuel + 1) = none := by
  simp only [chainWalk, h]

/-- Case analysis for a successful walk step from `some i`. -/
theorem chainWalk_some_elim {storage : List (Slot α)} {i fuel : Nat} {l : List Nat}
    (h : chainWalk storage (some i) (fuel + 1) = some l) :
    ∃ nxt rest, storage[i]? = some (Slot.free nxt) ∧
      chainWalk storage nxt fuel = some rest ∧ l = i :: rest := by
  match hse : storage[i]? with
  | some (Slot.free nxt) =>
      rw [chainWalk_step_free hse] at h
      match hw : chainWalk storage nxt fuel with
      | some rest =>
          rw [hw] at h
          simp only [Option.map_some'] at h
          exact ⟨nxt, rest, rfl, hw, (Option.some.inj h).symm⟩
      | none => rw [hw] at h; cases h
  | some (Slot.val _) => rw [chainWalk_step_val hse] at h; cases h
  | none => rw [chainWalk_step_oob hse] at h; cases h

theorem chainWalk_mem_lt {storage : List (Slot α)} :
    ∀ {fuel : Nat} {st : Option Nat} {l : List Nat},
      chainWalk storage st fuel = some l → ∀ x ∈ l, x < storage.length
  | _, none, _, h => by
      rw [chainWalk_none] at h
      cases h; intro x hx; cases hx
  | 0, some _, _, h => by cases h
  | fuel + 1, some i, l, h => by
      obtain ⟨nxt, rest, hse, hw, rfl⟩ := chainWalk_some_elim h
      intro x hx
      rcases List.mem_cons.mp hx with rfl | hx'
      · exact (List.getElem?_eq_some.mp hse).1
      · exact chainWalk_mem_lt hw x hx'

theorem chainWalk_mem_free {storage : List (Slot α)} :
    ∀ {fuel : Nat} {st : Option Nat} {l : List Nat},
      chainWalk storage st fuel = some l →
      ∀ x ∈ l, isFreeSlot (storage.getD x (Slot.free none)) = true
  | _, none, _, h => by
      rw [chainWalk_none] at h
      cases h; intro x hx; cases hx
  | 0, some _, _, h => by cases h
  | fuel + 1, some i, l, h => by
      obtain ⟨nxt, rest, hse, hw, rfl⟩ := chainWalk_some_elim h
      intro x hx
      rcases List.mem_cons.mp hx with rfl | hx'
      · rw [List.getD_eq_getElem?_getD, hse]; rfl
      · exact chainWalk_mem_free hw x hx'

/-- A successful walk succeeds with any fuel exceeding its length. -/
theorem chainWalk_fuel {storage : List (Slot α)} :
    ∀ {fuel : Nat} {st : Option Nat} {l : List Nat},
      chainWalk storage st fuel = some l →
      ∀ {fuel' : Nat}, l.length < fuel' → chainWalk storage st fuel' = some l
  | _, none, _, h, fuel', _ => by
      rw [chainWalk_none] at h; rw [chainWalk_none]; exact h
  | 0, some _, _, h, _, _ => by cases h
  | fuel + 1, some i, l, h, fuel', hlen => by
      obtain ⟨nxt, rest, hse, hw, rfl⟩ := chainWalk_some_elim h
      match fuel', hlen with
      | f' + 1, hlen =>
          have hr : rest.length < f' := by simpa using hlen
          rw [chainWalk_step_free hse, chainWalk_fuel hw hr, Option.map_some']

/-- Modifying a slot that the walk does not visit leaves the walk intact. -/
theorem chainWalk_set {storage : List (Slot α)} {x : Slot α} {j : Nat} :
    ∀ {fuel : Nat} {st : Option Nat} {l : List Nat},
      chainWalk storage st fuel = some l → j ∉ l →
      chainWalk (storage.set j x) st fuel = some l
  | _, none, _, h, _ => by rw [chainWalk_none] at h; rw [chainWalk_none]; exact h
  | 0, some _, _, h, _ => by cases h
  | fuel + 1, some i, l, h, hj => by
      obtain ⟨nxt, rest, hse, hw, rfl⟩ := chainWalk_some_elim h
      have hji : j ≠ i := fun hc => hj (hc ▸ List.mem_cons_self i rest)
      have hjr : j ∉ rest := fun hc => hj (List.mem_cons_of_mem i hc)
      have hse' : (storage.set j x)[i]? = some (Slot.free nxt) := by
        rw [List.getElem?_set_ne hji]; exact hse
      rw [chainWalk_step_free hse', chainWalk_set hw hjr, Option.map_some']

theorem getD_of_getElem? {β : Type _} {l : List β} {i : Nat} {x : β} (d : β)
    (h : l[i]? = some x) : l.getD i d = x := by
  rw [List.getD_eq_getElem?_getD, h]; rfl

/-! ## Well-formedness accessors -/

theorem WF.chain_some {a : inplace_free_list α} (h : WF a) :
    chainWalk a.storage_ a.first_free_ (a.capacity + 1) = some (freeChain a) := by
  rcases hw : chainWalk a.storage_ a.first_free_ (a.capacity + 1) with _ | l
  · exact absurd hw h.1
  · unfold freeChain; rw [hw]; rfl

theorem WF.nodup {a : inplace_free_list α} (h : WF a) : (freeChain a).Nodup := h.2.1

theorem WF.tag {a : inplace_free_list α} (h : WF a) {i : Nat} (hi : i < a.capacity) :
    isFreeSlot (a.storage_.getD i (Slot.free none)) = decide (i ∈ freeChain a) :=
  h.2.2.1 i (List.mem_range.mpr hi)

theorem WF.count {a : inplace_free_list α} (h : WF a) :
    a.size_ + (freeChain a).length = a.capacity := h.2.2.2

theorem mem_freeChain_lt {a : inplace_free_list α} {x : Nat} (h : x ∈ freeChain a) :
    x < a.capacity := by
  rcases hw : chainWalk a.storage_ a.first_free_ (a.capacity + 1) with _ | l
  · unfold freeChain at h; rw [hw] at h; cases h
  · unfold freeChain at h; rw [hw] at h
    exact chainWalk_mem_lt hw x h

/-- A duplicate-free list of indices below `n`, together with one more index
below `n` that it misses, has length below `n`. -/
theorem nodup_cons_length_le {l : List Nat} {i n : Nat} (hn : (i :: l).Nodup)
    (hlt : ∀ x ∈ i :: l, x < n) : l.length + 1 ≤ n := by
  have hsub : (i :: l) ⊆ List.range n := fun x hx => List.mem_range.mpr (hlt x hx)
  have := (hn.subperm hsub).length_le
  simpa using this

theorem capacity_set (a : inplace_free_list α) (i : Nat) (x : Slot α) :
    (a.storage_.set i x).length = a.capacity := a.storage_.length_set ..

/-- The whole arena is full (per `full()`) iff the free chain is empty,
assuming well-formedness. -/
theorem full_iff_freeChain_nil {a : inplace_free_list α} (h : WF a) :
    (full a = true) ↔ freeChain a = [] := by
  rcases hff : a.first_free_ with _ | i
  · constructor
    · intro _
      unfold freeChain
      rw [hff, chainWalk_none]
      rfl
    · intro _; simp [full, hff]
  · have hc := h.chain_some
    rw [hff] at hc
    obtain ⟨nxt, rest, _, _, hcons⟩ := chainWalk_some_elim hc
    constructor
    · intro hfull; simp [full, hff] at hfull
    · intro hnil; rw [hcons] at hnil; cases hnil

/-! ## Ascending chains -/

/-- A storage whose slots from `k` upward link each slot to its successor
(with the sentinel in the last slot) has the ascending suffix as its chain. -/
theorem chainWalk_ascend (storage : List (Slot α)) :
    ∀ (fuel k : Nat), k < storage.length →
      (∀ j, k ≤ j → j + 1 < storage.length →
        storage[j]? = some (Slot.free (some (j + 1)))) →
      storage[storage.length - 1]? = some (Slot.free none) →
      storage.length - k < fuel →
      chainWalk storage (some k) fuel = some (List.range' k (storage.length - k))
  | 0, k, _, _, _, hf => by omega
  | fuel + 1, k, hk, hmid, hlast, hf => by
      by_cases hke : k = storage.length - 1
      · have h1 : storage.length - k = 1 := by omega
        rw [chainWalk_step_free (hke ▸ hlast), chainWalk_none, h1]
        rfl
      · have hk1 : k + 1 < storage.length := by omega
        have hstep := hmid k (Nat.le_refl k) hk1
        have hrec := chainWalk_ascend storage fuel (k + 1) hk1
          (fun j hj => hmid j (by omega)) hlast (by omega)
        rw [chainWalk_step_free hstep, hrec, Option.map_some']
        have : storage.length - k = (storage.length - (k + 1)) + 1 := by omega
        rw [this, List.range'_succ]

theorem init_empty_storage_get (cap k : Nat) (hk : k < cap) :
    (init_empty α cap).storage_[k]? =
      some (Slot.free (if k = cap - 1 then none else some (k + 1))) := by
  unfold init_empty
  simp [List.getElem?_map, List.getElem?_range hk]

theorem init_empty_capacity (cap : Nat) : (init_empty α cap).capacity = cap := by
  simp [init_empty, capacity]

/-- The walk of the freshly initialized arena (shared helper). -/
theorem init_empty_walk (cap : Nat) (hcap : 0 < cap) :
    chainWalk (init_empty α cap).storage_ (some 0) (cap + 1) =
      some (List.range cap) := by
  have hlen : (init_empty α cap).storage_.length = cap := init_empty_capacity cap
  have h := chainWalk_ascend (α := α) (init_empty α cap).storage_ (cap + 1) 0
    (by omega)
    (fun j _ hj1 => by
      rw [init_empty_storage_get cap j (by omega)]
      have : ¬ (j = cap - 1) := by omega
      simp [this, hlen] at hj1 ⊢)
    (by
      rw [hlen, init_empty_storage_get cap (cap - 1) (by omega)]
      simp)
    (by omega)
  rw [hlen] at h
  simpa [List.range_eq_range'] using h

/-- The freshly initialized arena: the free chain visits all slots in
ascending order. -/
theorem init_empty_freeChain (cap : Nat) (hcap : 0 < cap) :
    freeChain (init_empty α cap) = List.range cap := by
  have hff : (init_empty α cap).first_free_ = some 0 := rfl
  unfold freeChain
  rw [hff, init_empty_capacity, init_empty_walk cap hcap]
  rfl

/-- The freshly initialized arena is well-formed. -/
theorem init_empty_WF (cap : Nat) (hcap : 0 < cap) : WF (init_empty α cap) := by
  have hchain := init_empty_freeChain (α := α) cap hcap
  have hff : (init_empty α cap).first_free_ = some 0 := rfl
  refine ⟨?_, ?_, ?_, ?_⟩
  · rw [hff, init_empty_capacity, init_empty_walk cap hcap]
    intro hc; cases hc
  · rw [hchain]; exact List.nodup_range cap
  · intro i hi
    rw [List.mem_range, init_empty_capacity] at hi
    rw [hchain, getD_of_getElem? _ (init_empty_storage_get cap i hi)]
    simp [isFreeSlot, List.mem_range, hi]
  · rw [hchain]
    simp [init_empty, capacity]

/-! ## emplace and erase -/

theorem emplace_eq_none_iff (a : inplace_free_list α) (v : α) :
    a.emplace v = none ↔ a.first_free_ = none := by
  unfold emplace
  rcases a.first_free_ with _ | i <;> simp

/-- Full behaviour of a successful `emplace`: the slot is the chain head,
the new chain is the tail, `size_` is incremented, and well-formedness is
preserved. -/
theorem emplace_spec {a a' : inplace_free_list α} {v : α} {i : Nat} (hwf : WF a)
    (h : a.emplace v = some (a', i)) :
    a.first_free_ = some i ∧
    freeChain a = i :: freeChain a' ∧
    a'.storage_ = a.storage_.set i (Slot.val v) ∧
    a'.size_ = a.size_ + 1 ∧
    a'.capacity = a.capacity ∧
    WF a' := by
  rcases hff : a.first_free_ with _ | j
  · unfold emplace at h; rw [hff] at h; cases h
  · unfold emplace at h
    rw [hff] at h
    simp only [Option.some.injEq, Prod.mk.injEq] at h
    obtain ⟨ha', hji⟩ := h
    subst hji
    have hc := hwf.chain_some
    rw [hff] at hc
    obtain ⟨nxt, rest, hse, hw, hcons⟩ := chainWalk_some_elim hc
    have hilen : j < a.storage_.length := (List.getElem?_eq_some.mp hse).1
    have hnodup : (j :: rest).Nodup := hcons ▸ hwf.nodup
    have hinotin : j ∉ rest := (List.nodup_cons.mp hnodup).1
    have hrestlt : ∀ x ∈ rest, x < a.storage_.length := fun x hx =>
      chainWalk_mem_lt hw x hx
    have hrestlen : rest.length + 1 ≤ a.capacity := by
      refine nodup_cons_length_le hnodup ?_
      intro x hx
      rcases List.mem_cons.mp hx with rfl | hx'
      · exact hilen
      · exact hrestlt x hx'
    -- the new first_free_ is the popped head's link
    have hffnew : a'.first_free_ = nxt := by
      rw [← ha']
      simp only
      rw [getD_of_getElem? _ hse]
      rfl
    have hstor : a'.storage_ = a.storage_.set j (Slot.val v) := by rw [← ha']
    have hcc : a.capacity = a.storage_.length := rfl
    have hcap' : a'.capacity = a.capacity := by
      simp only [capacity, hstor, List.length_set]
    -- the new chain is the old tail
    have hw' : chainWalk a'.storage_ nxt (a'.capacity + 1) = some rest := by
      simp only [capacity, hstor, List.length_set]
      exact chainWalk_set (chainWalk_fuel hw (by omega)) hinotin
    have hchain' : freeChain a' = rest := by
      unfold freeChain
      rw [hffnew, hw']
      rfl
    refine ⟨rfl, by rw [hcons, hchain'], hstor, by rw [← ha'], hcap', ?_, ?_, ?_, ?_⟩
    · rw [hffnew, hw']
      intro hcon; cases hcon
    · rw [hchain']
      exact (List.nodup_cons.mp hnodup).2
    · intro m hm
      rw [List.mem_range, hcap'] at hm
      rw [hchain']
      by_cases hmi : m = j
      · subst hmi
        rw [hstor, getD_set_self _ _ _ _ hilen]
        simp [isFreeSlot, hinotin]
      · rw [hstor, getD_set_ne _ _ _ (fun hc => hmi hc.symm)]
        have := hwf.tag hm
        rw [this, hcons]
        simp [List.mem_cons, hmi]
    · rw [hchain', ← ha']
      simp only [capacity, List.length_set]
      have := hwf.count
      rw [hcons] at this
      simp only [List.length_cons] at this
      omega

/-- Full behaviour of `erase` on an occupied slot: the slot is pushed on the
chain head, `size_` is decremented, well-formedness is preserved. -/
theorem erase_spec {a : inplace_free_list α} {i : Nat} (hwf : WF a)
    (hi : i < a.capacity)
    (hocc : isFreeSlot (a.storage_.getD i (Slot.free none)) = false) :
    freeChain (a.erase i) = i :: freeChain a ∧
    (a.erase i).size_ = a.size_ - 1 ∧
    a.size_ ≠ 0 ∧
    (a.erase i).capacity = a.capacity ∧
    WF (a.erase i) := by
  have hnotin : i ∉ freeChain a := by
    intro hin
    rw [hwf.tag hi] at hocc
    simp [hin] at hocc
  have hchainlt : ∀ x ∈ freeChain a, x < a.capacity := fun x hx => mem_freeChain_lt hx
  have hlen : (freeChain a).length + 1 ≤ a.capacity := by
    refine nodup_cons_length_le (List.nodup_cons.mpr ⟨hnotin, hwf.nodup⟩) ?_
    intro x hx
    rcases List.mem_cons.mp hx with rfl | hx'
    · exact hi
    · exact hchainlt x hx'
  have hsz : a.size_ ≠ 0 := by
    have := hwf.count
    omega
  have hstor : (a.erase i).storage_ = a.storage_.set i (Slot.free a.first_free_) := rfl
  have hcap' : (a.erase i).capacity = a.capacity := capacity_set ..
  have hse : (a.erase i).storage_[i]? = some (Slot.free a.first_free_) := by
    rw [hstor]
    exact List.getElem?_set_self hi
  have hw0 : chainWalk a.storage_ a.first_free_ (a.capacity + 1) = some (freeChain a) :=
    hwf.chain_some
  have hw1 : chainWalk (a.erase i).storage_ a.first_free_ (a.capacity) =
      some (freeChain a) := by
    rw [hstor]
    exact chainWalk_set (chainWalk_fuel hw0 (by omega)) hnotin
  have hchain : freeChain (a.erase i) = i :: freeChain a := by
    unfold freeChain
    have hff : (a.erase i).first_free_ = some i := rfl
    rw [hff, hcap', chainWalk_step_free hse, hw1, Option.map_some', hw0]
    rfl
  refine ⟨hchain, rfl, hsz, hcap', ?_, ?_, ?_, ?_⟩
  · have hff : (a.erase i).first_free_ = some i := rfl
    rw [hff, hcap', chainWalk_step_free hse, hw1, Option.map_some']
    intro hcon; cases hcon
  · rw [hchain]
    exact List.nodup_cons.mpr ⟨hnotin, hwf.nodup⟩
  · intro m hm
    rw [List.mem_range, hcap'] at hm
    rw [hchain]
    by_cases hmi : m = i
    · subst hmi
      rw [hstor, getD_set_self _ _ _ _ (by rw [capacity] at hi; omega)]
      simp [isFreeSlot]
    · rw [hstor, getD_set_ne _ _ _ (fun hc => hmi hc.symm)]
      have := hwf.tag hm
      rw [this]
      simp [List.mem_cons, hmi]
  · rw [hchain, hcap']
    simp only [erase, List.length_cons]
    have := hwf.count
    omega

/-! ## Live-value multiset helpers -/

/-- The live values of a storage block, in slot order. -/
def liveVals (l : List (Slot α)) : List α := l.filterMap slotVal

theorem liveVals_length (l : List (Slot α)) :
    (liveVals l).length + l.countP isFreeSlot = l.length := by
  induction l with
  | nil => rfl
  | cons a t ih =>
      cases a <;> simp [liveVals, List.filterMap_cons, List.countP_cons, slotVal,
        isFreeSlot] at ih ⊢ <;> omega

theorem liveVals_set_free_of_free {l : List (Slot α)} {j : Nat} (x : Option Nat) :
    ∀ (_hj : j < l.length), isFreeSlot (l.getD j (Slot.free none)) = true →
      liveVals (l.set j (Slot.free x)) = liveVals l := by
  induction l generalizing j with
  | nil => intro hj _; cases hj
  | cons a t ih =>
      intro hj hfree
      cases j with
      | zero =>
          cases a with
          | val v => simp [List.getD_cons_zero, isFreeSlot] at hfree
          | free y => simp [liveVals, List.filterMap_cons, slotVal]
      | succ m =>
          have hm : m < t.length := by simpa using hj
          have hfree' : isFreeSlot (t.getD m (Slot.free none)) = true := by
            simpa [List.getD_cons_succ] using hfree
          have hrec := ih hm hfree'
          cases a with
          | val w =>
              simp only [List.set_cons_succ, liveVals, List.filterMap_cons, slotVal]
                at hrec ⊢
              rw [hrec]
          | free y =>
              simp only [List.set_cons_succ, liveVals, List.filterMap_cons, slotVal]
                at hrec ⊢
              exact hrec

theorem liveVals_set_val_of_free {l : List (Slot α)} {j : Nat} (v : α) :
    ∀ (_hj : j < l.length), isFreeSlot (l.getD j (Slot.free none)) = true →
      ((liveVals (l.set j (Slot.val v)) : List α) : Multiset α) =
        v ::ₘ ((liveVals l : List α) : Multiset α) := by
  induction l generalizing j with
  | nil => intro hj _; cases hj
  | cons a t ih =>
      intro hj hfree
      cases j with
      | zero =>
          cases a with
          | val w => simp [List.getD_cons_zero, isFreeSlot] at hfree
          | free y => simp [liveVals, List.filterMap_cons, slotVal]
      | succ m =>
          have hm : m < t.length := by simpa using hj
          have hfree' : isFreeSlot (t.getD m (Slot.free none)) = true := by
            simpa [List.getD_cons_succ] using hfree
          have hrec := ih hm hfree'
          cases a with
          | val w =>
              simp only [List.set_cons_succ, liveVals, List.filterMap_cons, slotVal]
              show ((w :: liveVals (t.set m (Slot.val v)) : List α) : Multiset α) =
                v ::ₘ ((w :: liveVals t : List α) : Multiset α)
              show w ::ₘ ((liveVals (t.set m (Slot.val v)) : List α) : Multiset α) =
                v ::ₘ w ::ₘ ((liveVals t : List α) : Multiset α)
              rw [hrec, Multiset.cons_swap]
          | free y =>
              simpa [liveVals, List.filterMap_cons, slotVal] using hrec

theorem liveVals_set_free_of_val {l : List (Slot α)} {j : Nat} {v : α} (x : Option Nat) :
    ∀ (_hj : j < l.length), l.getD j (Slot.free none) = Slot.val v →
      (v ::ₘ ((liveVals (l.set j (Slot.free x)) : List α) : Multiset α)) =
        ((liveVals l : List α) : Multiset α) := by
  induction l generalizing j with
  | nil => intro hj _; cases hj
  | cons a t ih =>
      intro hj hval
      cases j with
      | zero =>
          rw [List.getD_cons_zero] at hval
          subst hval
          simp [liveVals, List.filterMap_cons, slotVal]
      | succ m =>
          have hm : m < t.length := by simpa using hj
          have hval' : t.getD m (Slot.free none) = Slot.val v := by
            simpa [List.getD_cons_succ] using hval
          have hrec := ih hm hval'
          cases a with
          | val w =>
              simp only [List.set_cons_succ, liveVals, List.filterMap_cons, slotVal]
              show v ::ₘ ((w :: liveVals (t.set m (Slot.free x)) : List α) : Multiset α) =
                ((w :: liveVals t : List α) : Multiset α)
              show v ::ₘ w ::ₘ ((liveVals (t.set m (Slot.free x)) : List α) : Multiset α) =
                w ::ₘ ((liveVals t : List α) : Multiset α)
              rw [Multiset.cons_swap, hrec]
          | free y =>
              simpa [liveVals, List.filterMap_cons, slotVal] using hrec

/-! ## The optimize_at loop invariant -/

/-- Invariant of the two-cursor compaction loop, relative to the storage
`slots0` and free-chain head `ff0` the loop started from.  `mask` tracks the
conceptual occupancy (and always agrees with the slot tags), the region
above `right` is already linked ascending, the region below `left` is
occupied, the recorded callback pairs describe completed moves, and the
live-value multiset never changes. -/
structure OptInv (slots0 : List (Slot α)) (ff0 : Option Nat) (s : OptSt α) : Prop where
  len : s.storage.length = slots0.length
  mlen : s.mask.length = slots0.length
  lr : s.left ≤ s.right
  rlt : s.right < slots0.length
  prefOcc : ∀ i < s.left, s.mask.getD i false = false
  sufFree : ∀ j, s.right < j → j < slots0.length →
    s.storage.getD j (Slot.free none) = Slot.free (some (j + 1))
  sufMask : ∀ j, s.right < j → j < slots0.length → s.mask.getD j false = true
  tagMask : ∀ i < slots0.length,
    s.mask.getD i false = isFreeSlot (s.storage.getD i (Slot.free none))
  ms : ((liveVals s.storage : List α) : Multiset α) = (liveVals slots0 : List α)
  ffr : s.right + 1 = slots0.length ∨ s.mask.getD s.right false = true ∨
    (s.left < s.right ∧ s.mask.getD s.left false = true)
  ffCalls : s.calls = [] → s.firstFree = ff0
  callsBound : ∀ p ∈ s.calls, p.2 < p.1 ∧ p.1 < slots0.length
  callsFromFree : ∀ p ∈ s.calls, s.mask.getD p.1 false = true
  callsToOcc : ∀ p ∈ s.calls, s.mask.getD p.2 false = false
  callsToLe : ∀ p ∈ s.calls, p.2 ≤ s.left
  callsFromGe : ∀ p ∈ s.calls, s.right ≤ p.1
  callsVal : ∀ p ∈ s.calls,
    s.storage.getD p.2 (Slot.free none) = slots0.getD p.1 (Slot.free none)
  callsSrcOcc : ∀ p ∈ s.calls, isFreeSlot (slots0.getD p.1 (Slot.free none)) = false
  occPres : ∀ i < slots0.length, s.mask.getD i false = false →
    i ∉ s.calls.map Prod.snd →
    s.storage.getD i (Slot.free none) = slots0.getD i (Slot.free none)
  srcPres : ∀ i < slots0.length, isFreeSlot (slots0.getD i (Slot.free none)) = false →
    i ∉ s.calls.map Prod.fst →
    s.storage.getD i (Slot.free none) = slots0.getD i (Slot.free none) ∧
      s.mask.getD i false = false
  fromsNodup : (s.calls.map Prod.fst).Nodup
  tosNodup : (s.calls.map Prod.snd).Nodup

/-- Loop measure: each iteration strictly decreases it. -/
def optMeasure (s : OptSt α) : Nat :=
  2 * (s.right - s.left) + (if s.mask.getD s.left false then 1 else 0)

/-- Preservation: the `left++` branch (slot at `left` occupied). -/
theorem optInv_stepL {slots0 : List (Slot α)} {ff0 : Option Nat} {s : OptSt α}
    (inv : OptInv slots0 ff0 s) (hlr : s.left < s.right)
    (hml : s.mask.getD s.left false = false) :
    OptInv slots0 ff0 { s with left := s.left + 1 } ∧
      optMeasure { s with left := s.left + 1 } < optMeasure s := by
  constructor
  · exact
      { len := inv.len
        mlen := inv.mlen
        lr := hlr
        rlt := inv.rlt
        prefOcc := by
          intro i hi
          rcases Nat.lt_succ_iff_lt_or_eq.mp hi with h | rfl
          · exact inv.prefOcc i h
          · exact hml
        sufFree := inv.sufFree
        sufMask := inv.sufMask
        tagMask := inv.tagMask
        ms := inv.ms
        ffr := by
          rcases inv.ffr with h | h | ⟨_, h⟩
          · exact Or.inl h
          · exact Or.inr (Or.inl h)
          · rw [hml] at h; cases h
        ffCalls := inv.ffCalls
        callsBound := inv.callsBound
        callsFromFree := inv.callsFromFree
        callsToOcc := inv.callsToOcc
        callsToLe := fun p hp => Nat.le_succ_of_le (inv.callsToLe p hp)
        callsFromGe := inv.callsFromGe
        callsVal := inv.callsVal
        callsSrcOcc := inv.callsSrcOcc
        occPres := inv.occPres
        srcPres := inv.srcPres
        fromsNodup := inv.fromsNodup
        tosNodup := inv.tosNodup }
  · unfold optMeasure
    simp only [hml]
    split <;> split <;> omega

/-- Preservation: the `right--` branch (both cursors on free slots): the
slot at `right` is linked to its successor and `right` retreats. -/
theorem optInv_stepR {slots0 : List (Slot α)} {ff0 : Option Nat} {s : OptSt α}
    (inv : OptInv slots0 ff0 s) (hlr : s.left < s.right)
    (hml : s.mask.getD s.left false = true)
    (hmr : s.mask.getD s.right false = true) :
    OptInv slots0 ff0 { s with
        storage := s.storage.set s.right (Slot.free (some (s.right + 1)))
        right := s.right - 1 } ∧
      optMeasure { s with
        storage := s.storage.set s.right (Slot.free (some (s.right + 1)))
        right := s.right - 1 } < optMeasure s := by
  have hrlen : s.right < s.storage.length := by rw [inv.len]; exact inv.rlt
  have hfree : isFreeSlot (s.storage.getD s.right (Slot.free none)) = true := by
    rw [← inv.tagMask s.right inv.rlt]; exact hmr
  constructor
  · exact
      { len := by
          show (s.storage.set s.right (Slot.free (some (s.right + 1)))).length = slots0.length
          rw [List.length_set]; exact inv.len
        mlen := inv.mlen
        lr := by show s.left ≤ s.right - 1; omega
        rlt := by show s.right - 1 < slots0.length; have := inv.rlt; omega
        prefOcc := inv.prefOcc
        sufFree := by
          intro j hj hjlen
          have hj2 : s.right - 1 < j := hj
          have hjlen2 : j < slots0.length := hjlen
          show (s.storage.set s.right (Slot.free (some (s.right + 1)))).getD j
            (Slot.free none) = Slot.free (some (j + 1))
          by_cases hje : j = s.right
          · subst hje
            exact getD_set_self _ _ _ _ hrlen
          · have hgt : s.right < j := by omega
            rw [getD_set_ne _ _ _ (Ne.symm hje)]
            exact inv.sufFree j hgt hjlen2
        sufMask := by
          intro j hj hjlen
          have hj2 : s.right - 1 < j := hj
          have hjlen2 : j < slots0.length := hjlen
          by_cases hje : j = s.right
          · subst hje; exact hmr
          · exact inv.sufMask j (by omega) hjlen2
        tagMask := by
          intro i hi
          by_cases hie : i = s.right
          · subst hie
            rw [getD_set_self _ _ _ _ hrlen]
            exact hmr
          · rw [getD_set_ne _ _ _ (fun hc => hie hc.symm)]
            exact inv.tagMask i hi
        ms := by
          simp only
          rw [liveVals_set_free_of_free _ hrlen hfree]
          exact inv.ms
        ffr := by
          by_cases hle : s.left = s.right - 1
          · refine Or.inr (Or.inl ?_)
            show s.mask.getD (s.right - 1) false = true
            rw [← hle]; exact hml
          · refine Or.inr (Or.inr ⟨?_, hml⟩)
            show s.left < s.right - 1
            omega
        ffCalls := inv.ffCalls
        callsBound := inv.callsBound
        callsFromFree := inv.callsFromFree
        callsToOcc := inv.callsToOcc
        callsToLe := inv.callsToLe
        callsFromGe := fun p hp => le_trans (Nat.sub_le _ 1) (inv.callsFromGe p hp)
        callsVal := by
          intro p hp
          have hocc := inv.callsToOcc p hp
          have hne : s.right ≠ p.2 := by
            intro hc
            rw [← hc] at hocc
            rw [hmr] at hocc
            cases hocc
          simp only
          rw [getD_set_ne _ _ _ hne]
          exact inv.callsVal p hp
        callsSrcOcc := inv.callsSrcOcc
        occPres := by
          intro i hi hmi hit
          have hne : s.right ≠ i := by
            intro hc
            rw [hc] at hmr
            rw [hmi] at hmr
            cases hmr
          simp only at hmi ⊢
          rw [getD_set_ne _ _ _ hne]
          exact inv.occPres i hi hmi hit
        srcPres := by
          intro i hi hocc hif
          obtain ⟨hst, hmk⟩ := inv.srcPres i hi hocc hif
          have hne : s.right ≠ i := by
            intro hc
            rw [hc] at hmr
            rw [hmk] at hmr
            cases hmr
          exact ⟨by rw [getD_set_ne _ _ _ hne]; exact hst, hmk⟩
        fromsNodup := inv.fromsNodup
        tosNodup := inv.tosNodup }
  · unfold optMeasure
    simp only [hml]
    split <;> omega

/-- Preservation: the move branch (`left` free, `right` occupied): the value
at `right` is moved to `left`, the slot at `right` becomes a link to its
successor, the callback pair `(right, left)` is recorded, and `first_free_`
is pointed at `right`. -/
theorem optInv_stepM {slots0 : List (Slot α)} {ff0 : Option Nat} {s : OptSt α}
    (inv : OptInv slots0 ff0 s) (hlr : s.left < s.right)
    (hml : s.mask.getD s.left false = true)
    (hmr : s.mask.getD s.right false = false) :
    OptInv slots0 ff0 { s with
        storage := (s.storage.set s.left (s.storage.getD s.right (Slot.free none))).set
          s.right (Slot.free (some (s.right + 1)))
        calls := s.calls ++ [(s.right, s.left)]
        mask := (s.mask.set s.left false).set s.right true
        firstFree := some s.right } ∧
      optMeasure { s with
        storage := (s.storage.set s.left (s.storage.getD s.right (Slot.free none))).set
          s.right (Slot.free (some (s.right + 1)))
        calls := s.calls ++ [(s.right, s.left)]
        mask := (s.mask.set s.left false).set s.right true
        firstFree := some s.right } < optMeasure s := by
  have hne : s.left ≠ s.right := Nat.ne_of_lt hlr
  have hrlt0 : s.right < slots0.length := inv.rlt
  have hllt0 : s.left < slots0.length := lt_trans hlr hrlt0
  have hrlen : s.right < s.storage.length := by rw [inv.len]; exact hrlt0
  have hllen : s.left < s.storage.length := by rw [inv.len]; exact hllt0
  have hrmlen : s.right < s.mask.length := by rw [inv.mlen]; exact hrlt0
  have hlmlen : s.left < s.mask.length := by rw [inv.mlen]; exact hllt0
  obtain ⟨v, hv⟩ : ∃ v, s.storage.getD s.right (Slot.free none) = Slot.val v := by
    have htag := inv.tagMask s.right hrlt0
    rw [hmr] at htag
    rcases hslot : s.storage.getD s.right (Slot.free none) with w | y
    · exact ⟨w, rfl⟩
    · rw [hslot] at htag; cases htag
  -- membership facts about the recorded calls
  have hrtos : s.right ∉ s.calls.map Prod.snd := by
    intro hmem
    obtain ⟨p, hp, hpe⟩ := List.mem_map.mp hmem
    have := inv.callsToLe p hp
    omega
  have hltos : s.left ∉ s.calls.map Prod.snd := by
    intro hmem
    obtain ⟨p, hp, hpe⟩ := List.mem_map.mp hmem
    have := inv.callsToOcc p hp
    rw [hpe, hml] at this
    cases this
  have hrfroms : s.right ∉ s.calls.map Prod.fst := by
    intro hmem
    obtain ⟨p, hp, hpe⟩ := List.mem_map.mp hmem
    have := inv.callsFromFree p hp
    rw [hpe, hmr] at this
    cases this
  have horig : s.storage.getD s.right (Slot.free none) =
      slots0.getD s.right (Slot.free none) := inv.occPres s.right hrlt0 hmr hrtos
  have horig2 : slots0.getD s.right (Slot.free none) = Slot.val v := by
    rw [← horig]; exact hv
  rw [hv]
  -- uniform access to the updated storage and mask
  have hst_r : ((s.storage.set s.left (Slot.val v)).set s.right
      (Slot.free (some (s.right + 1)))).getD s.right (Slot.free none) =
      Slot.free (some (s.right + 1)) :=
    getD_set_self _ _ _ _ (by rw [List.length_set]; exact hrlen)
  have hst_l : ((s.storage.set s.left (Slot.val v)).set s.right
      (Slot.free (some (s.right + 1)))).getD s.left (Slot.free none) = Slot.val v := by
    rw [getD_set_ne _ _ _ (Ne.symm hne)]
    exact getD_set_self _ _ _ _ hllen
  have hst_o : ∀ i, i ≠ s.left → i ≠ s.right →
      ((s.storage.set s.left (Slot.val v)).set s.right
        (Slot.free (some (s.right + 1)))).getD i (Slot.free none) =
      s.storage.getD i (Slot.free none) := by
    intro i h1 h2
    rw [getD_set_ne _ _ _ (Ne.symm h2), getD_set_ne _ _ _ (Ne.symm h1)]
  have hmk_r : ((s.mask.set s.left false).set s.right true).getD s.right false = true :=
    getD_set_self _ _ _ _ (by rw [List.length_set]; exact hrmlen)
  have hmk_l : ((s.mask.set s.left false).set s.right true).getD s.left false = false := by
    rw [getD_set_ne _ _ _ (Ne.symm hne)]
    exact getD_set_self _ _ _ _ hlmlen
  have hmk_o : ∀ i, i ≠ s.left → i ≠ s.right →
      ((s.mask.set s.left false).set s.right true).getD i false =
        s.mask.getD i false := by
    intro i h1 h2
    rw [getD_set_ne _ _ _ (Ne.symm h2), getD_set_ne _ _ _ (Ne.symm h1)]
  constructor
  · exact
      { len := by
          show ((s.storage.set s.left (Slot.val v)).set s.right
            (Slot.free (some (s.right + 1)))).length = slots0.length
          rw [List.length_set, List.length_set]; exact inv.len
        mlen := by
          show ((s.mask.set s.left false).set s.right true).length = slots0.length
          rw [List.length_set, List.length_set]; exact inv.mlen
        lr := inv.lr
        rlt := inv.rlt
        prefOcc := by
          intro i hi
          have hi' : i < s.left := hi
          rw [hmk_o i (by omega) (by omega)]
          exact inv.prefOcc i hi'
        sufFree := by
          intro j hj hjl
          have hj' : s.right < j := hj
          have hjl' : j < slots0.length := hjl
          rw [hst_o j (by omega) (by omega)]
          exact inv.sufFree j hj' hjl'
        sufMask := by
          intro j hj hjl
          have hj' : s.right < j := hj
          have hjl' : j < slots0.length := hjl
          rw [hmk_o j (by omega) (by omega)]
          exact inv.sufMask j hj' hjl'
        tagMask := by
          intro i hi
          have hi' : i < slots0.length := hi
          by_cases hir : i = s.right
          · subst hir
            rw [hmk_r, hst_r]
            rfl
          · by_cases hil : i = s.left
            · subst hil
              rw [hmk_l, hst_l]
              rfl
            · rw [hmk_o i hil hir, hst_o i hil hir]
              exact inv.tagMask i hi'
        ms := by
          have hfree_l : isFreeSlot (s.storage.getD s.left (Slot.free none)) = true := by
            rw [← inv.tagMask s.left hllt0]; exact hml
          have h1 := liveVals_set_val_of_free (l := s.storage) (j := s.left) v hllen hfree_l
          have hmid : (s.storage.set s.left (Slot.val v)).getD s.right
              (Slot.free none) = Slot.val v := by
            rw [getD_set_ne _ _ _ hne]
            exact hv
          have h2 := liveVals_set_free_of_val (l := s.storage.set s.left (Slot.val v))
            (j := s.right) (some (s.right + 1))
            (by rw [List.length_set]; exact hrlen) hmid
          show ((liveVals ((s.storage.set s.left (Slot.val v)).set s.right
            (Slot.free (some (s.right + 1)))) : List α) : Multiset α) =
            ((liveVals slots0 : List α) : Multiset α)
          have h3 := h2.trans h1
          rw [← inv.ms]
          exact (Multiset.cons_inj_right v).mp h3
        ffr := Or.inr (Or.inl hmk_r)
        ffCalls := by
          intro h
          simp at h
        callsBound := by
          intro p hp
          rcases List.mem_append.mp hp with hp' | hp'
          · exact inv.callsBound p hp'
          · rw [List.mem_singleton] at hp'
            subst hp'
            exact ⟨hlr, hrlt0⟩
        callsFromFree := by
          intro p hp
          rcases List.mem_append.mp hp with hp' | hp'
          · have hge := inv.callsFromGe p hp'
            have hfr := inv.callsFromFree p hp'
            have h1 : p.1 ≠ s.left := by omega
            have h2 : p.1 ≠ s.right := by
              intro hc
              rw [hc, hmr] at hfr
              cases hfr
            rw [hmk_o p.1 h1 h2]
            exact hfr
          · rw [List.mem_singleton] at hp'
            subst hp'
            exact hmk_r
        callsToOcc := by
          intro p hp
          rcases List.mem_append.mp hp with hp' | hp'
          · have hto := inv.callsToOcc p hp'
            have hle := inv.callsToLe p hp'
            have h1 : p.2 ≠ s.left := by
              intro hc
              rw [hc, hml] at hto
              cases hto
            have h2 : p.2 ≠ s.right := by omega
            rw [hmk_o p.2 h1 h2]
            exact hto
          · rw [List.mem_singleton] at hp'
            subst hp'
            exact hmk_l
        callsToLe := by
          intro p hp
          rcases List.mem_append.mp hp with hp' | hp'
          · exact inv.callsToLe p hp'
          · rw [List.mem_singleton] at hp'
            subst hp'
            exact le_refl _
        callsFromGe := by
          intro p hp
          rcases List.mem_append.mp hp with hp' | hp'
          · exact inv.callsFromGe p hp'
          · rw [List.mem_singleton] at hp'
            subst hp'
            exact le_refl _
        callsVal := by
          intro p hp
          rcases List.mem_append.mp hp with hp' | hp'
          · have hto := inv.callsToOcc p hp'
            have hle := inv.callsToLe p hp'
            have h1 : p.2 ≠ s.left := by
              intro hc
              rw [hc, hml] at hto
              cases hto
            have h2 : p.2 ≠ s.right := by omega
            rw [hst_o p.2 h1 h2]
            exact inv.callsVal p hp'
          · rw [List.mem_singleton] at hp'
            subst hp'
            rw [hst_l]
            exact horig2.symm
        callsSrcOcc := by
          intro p hp
          rcases List.mem_append.mp hp with hp' | hp'
          · exact inv.callsSrcOcc p hp'
          · rw [List.mem_singleton] at hp'
            subst hp'
            rw [horig2]
            rfl
        occPres := by
          intro i hi hmi hnt
          have hi' : i < slots0.length := hi
          rw [List.map_append] at hnt
          have hnt1 : i ∉ s.calls.map Prod.snd := fun hc =>
            hnt (List.mem_append.mpr (Or.inl hc))
          have h1 : i ≠ s.left := by
            intro hc
            exact hnt (List.mem_append.mpr (Or.inr (by rw [hc]; simp)))
          have h2 : i ≠ s.right := by
            intro hc
            rw [hc, hmk_r] at hmi
            cases hmi
          rw [hmk_o i h1 h2] at hmi
          rw [hst_o i h1 h2]
          exact inv.occPres i hi' hmi hnt1
        srcPres := by
          intro i hi hocc hnf
          have hi' : i < slots0.length := hi
          rw [List.map_append] at hnf
          have hnf1 : i ∉ s.calls.map Prod.fst := fun hc =>
            hnf (List.mem_append.mpr (Or.inl hc))
          have h2 : i ≠ s.right := by
            intro hc
            exact hnf (List.mem_append.mpr (Or.inr (by rw [hc]; simp)))
          obtain ⟨he, hmf⟩ := inv.srcPres i hi' hocc hnf1
          have h1 : i ≠ s.left := by
            intro hc
            rw [hc, hml] at hmf
            cases hmf
          exact ⟨by rw [hst_o i h1 h2]; exact he, by rw [hmk_o i h1 h2]; exact hmf⟩
        fromsNodup := by
          show ((s.calls ++ [(s.right, s.left)]).map Prod.fst).Nodup
          rw [List.map_append]
          simp [List.nodup_append, inv.fromsNodup, hrfroms]
        tosNodup := by
          show ((s.calls ++ [(s.right, s.left)]).map Prod.snd).Nodup
          rw [List.map_append]
          simp [List.nodup_append, inv.tosNodup, hltos] }
  · show 2 * (s.right - s.left) +
      (if ((s.mask.set s.left false).set s.right true).getD s.left false then 1 else 0) <
      2 * (s.right - s.left) + (if s.mask.getD s.left false then 1 else 0)
    rw [hmk_l, hml]
    simp

/-- Running the loop with fuel at least the measure reaches a state that
still satisfies the invariant and has `left = right`. -/
theorem optLoop_spec {slots0 : List (Slot α)} {ff0 : Option Nat} :
    ∀ (fuel : Nat) (s : OptSt α), OptInv slots0 ff0 s → optMeasure s ≤ fuel →
      OptInv slots0 ff0 (optLoop fuel s) ∧
        (optLoop fuel s).left = (optLoop fuel s).right
  | 0, s, inv, hm => by
      have h1 := inv.lr
      have h2 : s.right - s.left = 0 ∧ (if s.mask.getD s.left false then 1 else 0) = 0 := by
        unfold optMeasure at hm
        omega
      simp only [optLoop]
      exact ⟨inv, by omega⟩
  | fuel + 1, s, inv, hm => by
      simp only [optLoop]
      by_cases hlr : s.left < s.right
      · rw [if_pos hlr]
        by_cases hml : s.mask.getD s.left false = true
        · rw [if_pos hml]
          by_cases hmr : s.mask.getD s.right false = true
          · rw [if_pos hmr]
            obtain ⟨inv', hdec⟩ := optInv_stepR inv hlr hml hmr
            exact optLoop_spec fuel _ inv' (by omega)
          · rw [if_neg hmr]
            rw [Bool.not_eq_true] at hmr
            obtain ⟨inv', hdec⟩ := optInv_stepM inv hlr hml hmr
            exact optLoop_spec fuel _ inv' (by omega)
        · rw [if_neg hml]
          rw [Bool.not_eq_true] at hml
          obtain ⟨inv', hdec⟩ := optInv_stepL inv hlr hml
          exact optLoop_spec fuel _ inv' (by omega)
      · rw [if_neg hlr]
        have := inv.lr
        exact ⟨inv, by omega⟩

/-- The loop's starting state inside `optimize_at`. -/
def optS0 (a : inplace_free_list α) : OptSt α :=
  { storage := a.storage_, firstFree := a.first_free_, mask := free_mask a
    calls := [], left := 0, right := a.capacity - 1 }

/-- The post-loop patch-up inside `optimize_at` (reset `first_free_` when the
final `right` is free; seal the last slot's link). -/
def optPost (a : inplace_free_list α) (s : OptSt α) :
    inplace_free_list α × List (Nat × Nat) :=
  let s1 := if s.mask.getD s.right false then
      { s with firstFree := some s.right
               storage := s.storage.set s.right (Slot.free (some (s.right + 1))) }
    else s
  let s2 := if s1.mask.getD (a.capacity - 1) false then
      { s1 with storage := s1.storage.set (a.capacity - 1) (Slot.free none) }
    else s1
  ({ storage_ := s2.storage, first_free_ := s2.firstFree, size_ := a.size_ }, s2.calls)

theorem optimize_at_eq (a : inplace_free_list α) :
    optimize_at a = optPost a (optLoop (2 * a.capacity + 1) (optS0 a)) := rfl

/-- Everything the claims need from arena-level compaction: the occupied
slots become exactly the prefix `{0, …, size-1}`, the free chain is the
ascending suffix, size/capacity are unchanged, well-formedness holds, the
live multiset is preserved, and the callback list describes the moves
exactly (each `to` receives the old value of its `from`, sources were
occupied and became free, each slot is reported at most once, and
unreported occupied slots are untouched). -/
def OptimizeSpec (a : inplace_free_list α)
    (res : inplace_free_list α × List (Nat × Nat)) : Prop :=
  (∀ i < a.capacity,
    isFreeSlot (res.1.storage_.getD i (Slot.free none)) = decide (a.size_ ≤ i)) ∧
  freeChain res.1 = List.range' a.size_ (a.capacity - a.size_) ∧
  res.1.size_ = a.size_ ∧
  res.1.capacity = a.capacity ∧
  WF res.1 ∧
  ((liveVals res.1.storage_ : List α) : Multiset α) = (liveVals a.storage_ : List α) ∧
  (∀ p ∈ res.2, p.2 < p.1 ∧ p.1 < a.capacity ∧
    res.1.storage_.getD p.2 (Slot.free none) = a.storage_.getD p.1 (Slot.free none) ∧
    isFreeSlot (a.storage_.getD p.1 (Slot.free none)) = false ∧
    isFreeSlot (res.1.storage_.getD p.1 (Slot.free none)) = true) ∧
  (res.2.map Prod.fst).Nodup ∧
  (res.2.map Prod.snd).Nodup ∧
  (∀ i < a.capacity, isFreeSlot (a.storage_.getD i (Slot.free none)) = false →
    i ∉ res.2.map Prod.fst →
    res.1.storage_.getD i (Slot.free none) = a.storage_.getD i (Slot.free none))

theorem getD_eq_getElem_at {β : Type _} {l : List β} {j : Nat} (d : β)
    (h : j < l.length) : l.getD j d = l[j] := by
  rw [List.getD_eq_getElem?_getD, List.getElem?_eq_getElem h]
  rfl

theorem getElem?_eq_some_getD {β : Type _} {l : List β} {j : Nat} (d : β)
    (h : j < l.length) : l[j]? = some (l.getD j d) := by
  rw [List.getElem?_eq_getElem h, getD_eq_getElem_at d h]

theorem length_eq_of_coe_eq {β : Type _} {l1 l2 : List β}
    (h : (l1 : Multiset β) = (l2 : Multiset β)) : l1.length = l2.length := by
  simpa using congrArg Multiset.card h

/-- The live-value count of a well-formed arena is its `size_`. -/
theorem liveVals_length_of_WF {a : inplace_free_list α} (hwf : WF a) :
    (liveVals a.storage_).length = a.size_ := by
  have hcount : a.storage_.countP isFreeSlot = (freeChain a).length := by
    have h := countP_eq_range_filter isFreeSlot a.storage_
      (fun i => decide (i ∈ freeChain a))
      (fun i h => by
        rw [List.get_eq_getElem, ← getD_eq_getElem_at (Slot.free none) h]
        exact hwf.tag h)
    rw [h]
    exact range_filter_mem_length _ hwf.nodup (fun x hx => mem_freeChain_lt hx)
  have hlen := liveVals_length a.storage_
  have hc := hwf.count
  unfold capacity at hc
  omega

/-- Exit case B: the final `right` is occupied.  Then the loop never acted
(the arena was full) and the post-processing is the identity. -/
theorem optPost_spec_B {a : inplace_free_list α} (hwf : WF a) (hcap : 0 < a.capacity)
    {se : OptSt α} (inve : OptInv a.storage_ a.first_free_ se)
    (hexit : se.left = se.right)
    (hB : se.mask.getD se.right false = false) :
    OptimizeSpec a (optPost a se) := by
  have hrB : se.right + 1 = a.capacity := by
    rcases inve.ffr with h | h | ⟨h, _⟩
    · exact h
    · rw [hB] at h; cases h
    · omega
  have hmaskF : ∀ i < a.capacity, se.mask.getD i false = false := by
    intro i hi
    by_cases hir : i = se.right
    · subst hir; exact hB
    · have hlt : i < se.left := by omega
      exact inve.prefOcc i hlt
  have hcalls : se.calls = [] := by
    rcases hc : se.calls with _ | ⟨p, rest⟩
    · rfl
    · exfalso
      have hp : p ∈ se.calls := by rw [hc]; exact List.mem_cons_self ..
      have h1 := inve.callsFromFree p hp
      have h2 := inve.callsBound p hp
      rw [hmaskF p.1 h2.2] at h1
      cases h1
  have hff : se.firstFree = a.first_free_ := inve.ffCalls hcalls
  have hstor : se.storage = a.storage_ := by
    apply List.ext_getElem (by rw [inve.len])
    intro i h1 h2
    rw [← getD_eq_getElem_at (Slot.free none) h1, ← getD_eq_getElem_at (Slot.free none) h2]
    have hi : i < a.capacity := h2
    exact inve.occPres i hi (hmaskF i hi) (by rw [hcalls]; simp)
  have htagF : ∀ i < a.capacity, isFreeSlot (a.storage_.getD i (Slot.free none)) = false := by
    intro i hi
    rw [← hstor, ← inve.tagMask i hi]
    exact hmaskF i hi
  have hchain : freeChain a = [] := by
    rw [List.eq_nil_iff_forall_not_mem]
    intro x hx
    have hxlt := mem_freeChain_lt hx
    have htag := hwf.tag hxlt
    rw [htagF x hxlt] at htag
    simp [hx] at htag
  have hsz : a.size_ = a.capacity := by
    have := hwf.count
    rw [hchain] at this
    simpa using this
  have hres : optPost a se = (a, []) := by
    have hce : a.capacity - 1 = se.right := by omega
    simp only [optPost, hce, hB, Bool.false_eq_true, if_false]
    rw [hstor, hff, hcalls]
  rw [hres]
  refine ⟨?_, ?_, rfl, rfl, hwf, rfl, ?_, ?_, ?_, ?_⟩
  · intro i hi
    rw [htagF i hi]
    have : ¬ (a.size_ ≤ i) := by omega
    simp [this]
  · rw [hchain, hsz]
    simp
  · intro p hp; cases hp
  · simp
  · simp
  · intro i _ _ _; rfl

/-- Exit case A: the final `right` is free.  The post-processing points
`first_free_` at `right` and seals the suffix chain; the occupied slots are
exactly the prefix below `right`, which equals `size_`. -/
theorem optPost_spec_A {a : inplace_free_list α} (hwf : WF a) (hcap : 0 < a.capacity)
    {se : OptSt α} (inve : OptInv a.storage_ a.first_free_ se)
    (hexit : se.left = se.right)
    (hA : se.mask.getD se.right false = true) :
    OptimizeSpec a (optPost a se) := by
  have hrlt : se.right < a.capacity := inve.rlt
  have hlen_e : se.storage.length = a.capacity := inve.len
  have hcap_eq : a.capacity = a.storage_.length := rfl
  have hmlast : se.mask.getD (a.capacity - 1) false = true := by
    by_cases hre : se.right = a.capacity - 1
    · rw [← hre]; exact hA
    · exact inve.sufMask (a.capacity - 1) (by omega) (by omega)
  set stor2 : List (Slot α) := (se.storage.set se.right
    (Slot.free (some (se.right + 1)))).set (a.capacity - 1) (Slot.free none)
    with hstor2
  have h2len : stor2.length = a.capacity := by
    rw [hstor2, List.length_set, List.length_set]; exact hlen_e
  have hg_last : stor2.getD (a.capacity - 1) (Slot.free none) = Slot.free none := by
    rw [hstor2]
    exact getD_set_self _ _ _ _ (by rw [List.length_set]; omega)
  have hg_mid : ∀ j, se.right ≤ j → j < a.capacity - 1 →
      stor2.getD j (Slot.free none) = Slot.free (some (j + 1)) := by
    intro j hj1 hj2
    rw [hstor2, getD_set_ne _ _ _ (by omega)]
    by_cases hje : j = se.right
    · subst hje
      exact getD_set_self _ _ _ _ (by omega)
    · rw [getD_set_ne _ _ _ (Ne.symm hje)]
      exact inve.sufFree j (by omega) (by omega)
  have hg_low : ∀ i, i < se.right →
      stor2.getD i (Slot.free none) = se.storage.getD i (Slot.free none) ∧
        isFreeSlot (se.storage.getD i (Slot.free none)) = false := by
    intro i hi
    constructor
    · rw [hstor2, getD_set_ne _ _ _ (by omega), getD_set_ne _ _ _ (by omega)]
    · rw [← inve.tagMask i (by omega)]
      exact inve.prefOcc i (by omega)
  have hwalk : chainWalk stor2 (some se.right) (a.capacity + 1) =
      some (List.range' se.right (a.capacity - se.right)) := by
    have h := chainWalk_ascend stor2 (a.capacity + 1) se.right (by omega)
      (fun j hj1 hj2 => by
        rw [getElem?_eq_some_getD (Slot.free none) (by omega),
          hg_mid j hj1 (by omega)])
      (by
        rw [getElem?_eq_some_getD (Slot.free none) (by omega), h2len, hg_last])
      (by omega)
    rw [h2len] at h
    exact h
  have hcount2 : stor2.countP isFreeSlot = a.capacity - se.right := by
    have h := countP_eq_range_filter isFreeSlot stor2
      (fun i => decide (se.right ≤ i))
      (fun i hlt => by
        rw [List.get_eq_getElem, ← getD_eq_getElem_at (Slot.free none) hlt]
        have hic : i < a.capacity := by omega
        by_cases hir : i < se.right
        · rw [(hg_low i hir).1, (hg_low i hir).2]
          have : ¬ (se.right ≤ i) := by omega
          simp [this]
        · have hge : se.right ≤ i := by omega
          by_cases hie : i = a.capacity - 1
          · rw [hie, hg_last]
            simp [isFreeSlot, hge, hie ▸ hge]
          · rw [hg_mid i hge (by omega)]
            simp [isFreeSlot, hge])
    rw [h, h2len, range_filter_le_length]
  have hlive2 : liveVals stor2 = liveVals se.storage := by
    have hfree_r : isFreeSlot (se.storage.getD se.right (Slot.free none)) = true := by
      rw [← inve.tagMask se.right hrlt]; exact hA
    have h1 : liveVals (se.storage.set se.right (Slot.free (some (se.right + 1)))) =
        liveVals se.storage :=
      liveVals_set_free_of_free _ (by omega) hfree_r
    have hfree_c : isFreeSlot ((se.storage.set se.right
        (Slot.free (some (se.right + 1)))).getD (a.capacity - 1)
        (Slot.free none)) = true := by
      by_cases hce : a.capacity - 1 = se.right
      · rw [hce, getD_set_self _ _ _ _ (by omega)]
        rfl
      · rw [getD_set_ne _ _ _ (fun hc => hce hc.symm)]
        rw [← inve.tagMask (a.capacity - 1) (by omega)]
        exact hmlast
    rw [hstor2]
    rw [liveVals_set_free_of_free _ (by rw [List.length_set]; omega) hfree_c, h1]
  have hr_size : se.right = a.size_ := by
    have hlv := liveVals_length stor2
    have hlA := liveVals_length_of_WF hwf
    have hmsl := length_eq_of_coe_eq inve.ms
    rw [hlive2, hcount2, h2len] at hlv
    omega
  have hres : optPost a se =
      ({ storage_ := stor2, first_free_ := some se.right, size_ := a.size_ },
        se.calls) := by
    simp only [optPost, hA, hmlast, if_true, hstor2]
  rw [hres]
  have hpre : ∀ i < a.capacity,
      isFreeSlot (stor2.getD i (Slot.free none)) = decide (a.size_ ≤ i) := by
    intro i hi
    by_cases hir : i < se.right
    · rw [(hg_low i hir).1, (hg_low i hir).2]
      have : ¬ (a.size_ ≤ i) := by omega
      simp [this]
    · have hge : a.size_ ≤ i := by omega
      by_cases hie : i = a.capacity - 1
      · rw [hie, hg_last]
        simp [isFreeSlot, hie ▸ hge]
      · rw [hg_mid i (by omega) (by omega)]
        simp [isFreeSlot, hge]
  have hchain2 : freeChain
      ({ storage_ := stor2, first_free_ := some se.right, size_ := a.size_ } :
        inplace_free_list α) = List.range' a.size_ (a.capacity - a.size_) := by
    unfold freeChain
    show (chainWalk stor2 (some se.right) (stor2.length + 1)).getD [] = _
    rw [h2len, hwalk, hr_size]
    rfl
  refine ⟨hpre, hchain2, rfl, h2len, ⟨?_, ?_, ?_, ?_⟩, ?_, ?_, ?_, ?_, ?_⟩
  · show chainWalk stor2 (some se.right) (stor2.length + 1) ≠ none
    rw [h2len, hwalk]
    intro hc; cases hc
  · rw [hchain2]; exact List.nodup_range' ..
  · intro i hi
    rw [List.mem_range] at hi
    show isFreeSlot (stor2.getD i (Slot.free none)) = _
    rw [hchain2] at *
    rw [hpre i (by rw [← h2len]; exact hi)]
    have : (a.size_ ≤ i ∧ i < a.size_ + (a.capacity - a.size_)) ↔ a.size_ ≤ i := by
      have hc := hwf.count
      have h2 : i < a.capacity := by rw [← h2len]; exact hi
      omega
    simp [List.mem_range'_1, this]
  · show a.size_ + (freeChain _).length = _
    rw [hchain2, List.length_range']
    show _ = stor2.length
    have hc := hwf.count
    have : a.size_ ≤ a.capacity := by omega
    omega
  · show ((liveVals stor2 : List α) : Multiset α) = _
    rw [hlive2]
    exact inve.ms
  · intro p hp
    have hb := inve.callsBound p hp
    have hto := inve.callsToOcc p hp
    have hfr := inve.callsFromFree p hp
    have hp2r : p.2 ≠ se.right := by
      intro hc
      rw [hc, hA] at hto
      cases hto
    have hp2c : p.2 ≠ a.capacity - 1 := by
      intro hc
      rw [hc, hmlast] at hto
      cases hto
    refine ⟨hb.1, hb.2, ?_, inve.callsSrcOcc p hp, ?_⟩
    · show stor2.getD p.2 (Slot.free none) = _
      rw [hstor2, getD_set_ne _ _ _ (Ne.symm hp2c), getD_set_ne _ _ _ (Ne.symm hp2r)]
      exact inve.callsVal p hp
    · show isFreeSlot (stor2.getD p.1 (Slot.free none)) = true
      by_cases h1c : p.1 = a.capacity - 1
      · rw [h1c, hg_last]; rfl
      · by_cases h1r : p.1 = se.right
        · rw [h1r, hg_mid se.right (le_refl _) (by omega)]; rfl
        · rw [hstor2, getD_set_ne _ _ _ (Ne.symm h1c), getD_set_ne _ _ _ (Ne.symm h1r)]
          rw [← inve.tagMask p.1 hb.2]
          exact hfr
  · exact inve.fromsNodup
  · exact inve.tosNodup
  · intro i hi hocc hnf
    obtain ⟨he, hmf⟩ := inve.srcPres i hi hocc hnf
    have hir : i ≠ se.right := by
      intro hc
      rw [hc, hA] at hmf
      cases hmf
    have hic : i ≠ a.capacity - 1 := by
      intro hc
      rw [hc, hmlast] at hmf
      cases hmf
    show stor2.getD i (Slot.free none) = _
    rw [hstor2, getD_set_ne _ _ _ (Ne.symm hic), getD_set_ne _ _ _ (Ne.symm hir)]
    exact he

/-- Arena-level compaction satisfies the full specification (capacity at
least one; the `Capacity = 0` instantiation is statically ill-formed in the
C++). -/
theorem optimize_at_spec {a : inplace_free_list α} (hwf : WF a)
    (hcap : 0 < a.capacity) : OptimizeSpec a (optimize_at a) := by
  have hcap_eq : a.capacity = a.storage_.length := rfl
  have inv0 : OptInv a.storage_ a.first_free_ (optS0 a) :=
    { len := rfl
      mlen := by
        show (free_mask a).length = a.storage_.length
        simp [free_mask, capacity]
      lr := Nat.zero_le _
      rlt := by
        show a.capacity - 1 < a.storage_.length
        omega
      prefOcc := fun i hi => absurd hi (Nat.not_lt_zero i)
      sufFree := by
        intro j hj hjl
        exfalso
        have hj' : a.capacity - 1 < j := hj
        omega
      sufMask := by
        intro j hj hjl
        exfalso
        have hj' : a.capacity - 1 < j := hj
        omega
      tagMask := by
        intro i hi
        show (free_mask a).getD i false = _
        unfold free_mask
        rw [getD_map_range _ _ _ _ (show i < a.capacity from hi)]
        exact (hwf.tag hi).symm
      ms := rfl
      ffr := Or.inl (by show a.capacity - 1 + 1 = a.storage_.length; omega)
      ffCalls := fun _ => rfl
      callsBound := fun p hp => absurd hp (List.not_mem_nil p)
      callsFromFree := fun p hp => absurd hp (List.not_mem_nil p)
      callsToOcc := fun p hp => absurd hp (List.not_mem_nil p)
      callsToLe := fun p hp => absurd hp (List.not_mem_nil p)
      callsFromGe := fun p hp => absurd hp (List.not_mem_nil p)
      callsVal := fun p hp => absurd hp (List.not_mem_nil p)
      callsSrcOcc := fun p hp => absurd hp (List.not_mem_nil p)
      occPres := fun i _ _ _ => rfl
      srcPres := by
        intro i hi hocc _
        refine ⟨rfl, ?_⟩
        show (free_mask a).getD i false = false
        unfold free_mask
        rw [getD_map_range _ _ _ _ (show i < a.capacity from hi)]
        rw [← hwf.tag hi]
        exact hocc
      fromsNodup := List.nodup_nil
      tosNodup := List.nodup_nil }
  have hmeas : optMeasure (optS0 a) ≤ 2 * a.capacity + 1 := by
    show 2 * (a.capacity - 1 - 0) +
      (if (free_mask a).getD 0 false then 1 else 0) ≤ 2 * a.capacity + 1
    split <;> omega
  obtain ⟨inve, hexit⟩ := optLoop_spec (2 * a.capacity + 1) (optS0 a) inv0 hmeas
  rw [optimize_at_eq]
  by_cases hA : (optLoop (2 * a.capacity + 1) (optS0 a)).mask.getD
      (optLoop (2 * a.capacity + 1) (optS0 a)).right false = true
  · exact optPost_spec_A hwf hcap inve hexit hA
  · rw [Bool.not_eq_true] at hA
    exact optPost_spec_B hwf hcap inve hexit hA

/-- Degenerate capacity-zero arena: `optimize_at` is the identity. -/
theorem optimize_at_zero (a : inplace_free_list α) (hcap : a.capacity = 0) :
    optimize_at a = (a, []) := by
  have hmask : free_mask a = [] := by
    simp [free_mask, hcap]
  have h1 : optLoop (2 * a.capacity + 1) (optS0 a) = optS0 a := by
    rw [hcap]
    show optLoop 1 (optS0 a) = optS0 a
    simp only [optLoop]
    rw [if_neg]
    show ¬ ((optS0 a).left < (optS0 a).right)
    show ¬ (0 < a.capacity - 1)
    omega
  rw [optimize_at_eq, h1]
  have hmg : ∀ j : Nat, (optS0 a).mask.getD j false = false := by
    intro j
    show (free_mask a).getD j false = false
    rw [hmask]
    rfl
  simp only [optPost, hmg, Bool.false_eq_true, if_false]
  rfl

/-- Arena-level compaction satisfies the full specification, for every
well-formed arena. -/
theorem optimize_at_spec_all {a : inplace_free_list α} (hwf : WF a) :
    OptimizeSpec a (optimize_at a) := by
  by_cases hcap : 0 < a.capacity
  · exact optimize_at_spec hwf hcap
  · have hc0 : a.capacity = 0 := by omega
    rw [optimize_at_zero a hc0]
    have hchain0 : (freeChain a).length = 0 ∧ a.size_ = 0 := by
      have := hwf.count
      rw [hc0] at this
      omega
    have hnil : freeChain a = [] := List.eq_nil_of_length_eq_zero hchain0.1
    refine ⟨?_, ?_, rfl, rfl, hwf, rfl, ?_, ?_, ?_, ?_⟩
    · intro i hi; omega
    · rw [hnil, hchain0.2, hc0]
      rfl
    · intro p hp; cases hp
    · exact List.nodup_nil
    · exact List.nodup_nil
    · intro i hi; omega

end inplace_free_list

namespace free_list

theorem take_set_eq {β : Type _} :
    ∀ (l : List β) (k : Nat) (x : β), (l.set k x).take k = l.take k
  | [], _, _ => by simp
  | _ :: _, 0, _ => by simp
  | a :: t, k + 1, x => by
      simp [List.set_cons_succ, List.take_succ_cons, take_set_eq t k x]

theorem dropLast_set_last {β : Type _} (l : List β) (k : Nat) (x : β)
    (hk : k + 1 = l.length) : (l.set k x).dropLast = l.dropLast := by
  rw [List.dropLast_eq_take, List.dropLast_eq_take, List.length_set]
  have h1 : l.length - 1 = k := by omega
  rw [h1, take_set_eq]

end free_list

namespace inplace_free_list

/-- An allocate/release request against an arena: `alloc v` is `allocate`
(`emplace`), and `release i` is `release` (`erase`) of the slot at index
`i`.  A `release` of a slot that is not currently occupied violates the
documented precondition (asserted in debug builds), so a sequence is
interpreted with such requests skipped. -/
inductive Op (α : Type) where
  | alloc : α → Op α
  | release : Nat → Op α
deriving DecidableEq, Repr

/-- Apply one allocate/release request (a full arena reports the *full*
outcome and is unchanged; an invalid release is a skipped precondition
violation). -/
def applyOp (a : inplace_free_list α) : Op α → inplace_free_list α
  | .alloc v =>
      match a.emplace v with
      | some (a', _) => a'
      | none => a
  | .release i =>
      if i < a.capacity ∧ isFreeSlot (a.storage_.getD i (Slot.free none)) = false
      then a.erase i else a

/-- Apply a sequence of allocate/release requests. -/
def applyOps (a : inplace_free_list α) : List (Op α) → inplace_free_list α
  | [] => a
  | op :: rest => applyOps (applyOp a op) rest

theorem applyOp_WF {a : inplace_free_list α} (hwf : WF a) (op : Op α) :
    WF (applyOp a op) ∧ (applyOp a op).capacity = a.capacity := by
  cases op with
  | alloc v =>
      simp only [applyOp]
      rcases he : a.emplace v with _ | ⟨a', i⟩
      · exact ⟨hwf, rfl⟩
      · obtain ⟨_, _, _, _, hcap, hwf'⟩ := emplace_spec hwf he
        exact ⟨hwf', hcap⟩
  | release i =>
      simp only [applyOp]
      split
      · rename_i h
        obtain ⟨_, _, _, hcap, hwf'⟩ := erase_spec hwf h.1 h.2
        exact ⟨hwf', hcap⟩
      · exact ⟨hwf, rfl⟩

theorem applyOps_WF {a : inplace_free_list α} (hwf : WF a) (ops : List (Op α)) :
    WF (applyOps a ops) ∧ (applyOps a ops).capacity = a.capacity := by
  induction ops generalizing a with
  | nil => exact ⟨hwf, rfl⟩
  | cons op rest ih =>
      obtain ⟨hwf1, hcap1⟩ := applyOp_WF hwf op
      obtain ⟨hwf2, hcap2⟩ := ih hwf1
      exact ⟨hwf2, hcap2.trans hcap1⟩

end inplace_free_list

/-! ## Example instances used by the claim witnesses -/

/-- Capacity-4 arena, occupied at index 2, free chain `0 → 1 → 3`. -/
def exArenaC1 : inplace_free_list Nat :=
  ⟨[.free (some 1), .free (some 3), .val 42, .free none], some 0, 1⟩

/-- Capacity-4 arena, occupied at indices 0 and 3, free chain `1 → 2`. -/
def exArenaC2 : inplace_free_list Nat :=
  ⟨[.val 10, .free (some 2), .free none, .val 40], some 1, 2⟩

/-- The spec's concrete scenario: a capacity-4 arena filled with A, B, C, D. -/
def exArenaFull : inplace_free_list Nat :=
  ⟨[.val 1, .val 2, .val 3, .val 4], none, 4⟩

/-- Capacity-2 arena with one value and one free slot. -/
def exArenaC7 : inplace_free_list Nat :=
  ⟨[.val 7, .free none], some 1, 1⟩

/-- Single chunk of capacity 4 whose only value sits at index 2. -/
def exChunkC3 : inplace_free_list Nat :=
  ⟨[.free (some 1), .free (some 3), .val 42, .free none], some 0, 1⟩

/-- A pool holding only `exChunkC3`. -/
def exPoolC3 : free_list Nat := ⟨[exChunkC3]⟩

/-- Pool with chunk capacity 1, built by inserting 5, 6, 7 and erasing the
values of chunks 1 and 2 (in that order) — a state reachable by
emplace/erase alone. -/
def exPoolC5 : free_list Nat :=
  free_list.erase
    (free_list.erase
      ((free_list.emplace 1
        ((free_list.emplace 1
          ((free_list.emplace 1 (⟨[]⟩ : free_list Nat) 5).1) 6).1) 7).1)
      1 0)
    2 0

/-- The spec's concrete pool scenario: chunk capacity 2, five values. -/
def exPoolC5w : free_list Nat :=
  (free_list.emplace 2
    ((free_list.emplace 2
      ((free_list.emplace 2
        ((free_list.emplace 2
          ((free_list.emplace 2 (⟨[]⟩ : free_list Nat) 1).1) 2).1) 3).1) 4).1) 5).1

/-! ## The claims -/

/-- C1: for every (well-formed) arena state, after arena-level compaction
(`optimize_at`) the occupied slots form exactly the lowest-index prefix
`{0, …, size()−1}`, the free slots form the highest-index suffix, the free
chain threads that suffix in ascending index order, and the multiset of
live values (compared by value) is unchanged. -/
theorem arena_compaction_prefix_suffix_multiset {α : Type}
    (a : inplace_free_list α) (hwf : inplace_free_list.WF a) :
    (∀ i < a.capacity,
      isFreeSlot ((inplace_free_list.optimize_at a).1.storage_.getD i (Slot.free none)) =
        decide (a.size_ ≤ i)) ∧
    inplace_free_list.freeChain (inplace_free_list.optimize_at a).1 =
      List.range' a.size_ (a.capacity - a.size_) ∧
    (inplace_free_list.optimize_at a).1.size_ = a.size_ ∧
    (inplace_free_list.optimize_at a).1.capacity = a.capacity ∧
    ((inplace_free_list.liveVals (inplace_free_list.optimize_at a).1.storage_ : List α) :
      Multiset α) = (inplace_free_list.liveVals a.storage_ : List α) := by
  obtain ⟨h1, h2, h3, h4, _, h6, _, _, _, _⟩ := inplace_free_list.optimize_at_spec_all hwf
  exact ⟨h1, h2, h3, h4, h6⟩

theorem arena_compaction_prefix_suffix_multiset_witness :
    inplace_free_list.WF exArenaC1 ∧
    ((∀ i < exArenaC1.capacity,
      isFreeSlot ((inplace_free_list.optimize_at exArenaC1).1.storage_.getD i
        (Slot.free none)) = decide (exArenaC1.size_ ≤ i)) ∧
    inplace_free_list.freeChain (inplace_free_list.optimize_at exArenaC1).1 =
      List.range' exArenaC1.size_ (exArenaC1.capacity - exArenaC1.size_) ∧
    (inplace_free_list.optimize_at exArenaC1).1.size_ = exArenaC1.size_ ∧
    (inplace_free_list.optimize_at exArenaC1).1.capacity = exArenaC1.capacity ∧
    ((inplace_free_list.liveVals (inplace_free_list.optimize_at exArenaC1).1.storage_ :
      List Nat) : Multiset Nat) =
      (inplace_free_list.liveVals exArenaC1.storage_ : List Nat)) :=
  ⟨by decide, arena_compaction_prefix_suffix_multiset exArenaC1 (by decide)⟩

/-- C2: during arena-level compaction the relocation callback fires exactly
once per moved value with `(from, to)`, the value's slot after compaction is
exactly the reported `to` (its old slot having become free), it never fires
for a value whose slot does not change, and every value not reported keeps
its pre-compaction index. -/
theorem arena_compaction_callback_exact {α : Type}
    (a : inplace_free_list α) (hwf : inplace_free_list.WF a) :
    (∀ p ∈ (inplace_free_list.optimize_at a).2, p.2 < p.1 ∧ p.1 < a.capacity ∧
      (inplace_free_list.optimize_at a).1.storage_.getD p.2 (Slot.free none) =
        a.storage_.getD p.1 (Slot.free none) ∧
      isFreeSlot (a.storage_.getD p.1 (Slot.free none)) = false ∧
      isFreeSlot ((inplace_free_list.optimize_at a).1.storage_.getD p.1
        (Slot.free none)) = true) ∧
    ((inplace_free_list.optimize_at a).2.map Prod.fst).Nodup ∧
    ((inplace_free_list.optimize_at a).2.map Prod.snd).Nodup ∧
    (∀ i < a.capacity, isFreeSlot (a.storage_.getD i (Slot.free none)) = false →
      i ∉ (inplace_free_list.optimize_at a).2.map Prod.fst →
      (inplace_free_list.optimize_at a).1.storage_.getD i (Slot.free none) =
        a.storage_.getD i (Slot.free none)) := by
  obtain ⟨_, _, _, _, _, _, h7, h8, h9, h10⟩ := inplace_free_list.optimize_at_spec_all hwf
  exact ⟨h7, h8, h9, h10⟩

theorem arena_compaction_callback_exact_witness :
    inplace_free_list.WF exArenaC2 ∧
    ((∀ p ∈ (inplace_free_list.optimize_at exArenaC2).2, p.2 < p.1 ∧
      p.1 < exArenaC2.capacity ∧
      (inplace_free_list.optimize_at exArenaC2).1.storage_.getD p.2 (Slot.free none) =
        exArenaC2.storage_.getD p.1 (Slot.free none) ∧
      isFreeSlot (exArenaC2.storage_.getD p.1 (Slot.free none)) = false ∧
      isFreeSlot ((inplace_free_list.optimize_at exArenaC2).1.storage_.getD p.1
        (Slot.free none)) = true) ∧
    ((inplace_free_list.optimize_at exArenaC2).2.map Prod.fst).Nodup ∧
    ((inplace_free_list.optimize_at exArenaC2).2.map Prod.snd).Nodup ∧
    (∀ i < exArenaC2.capacity,
      isFreeSlot (exArenaC2.storage_.getD i (Slot.free none)) = false →
      i ∉ (inplace_free_list.optimize_at exArenaC2).2.map Prod.fst →
      (inplace_free_list.optimize_at exArenaC2).1.storage_.getD i (Slot.free none) =
        exArenaC2.storage_.getD i (Slot.free none))) :=
  ⟨by decide, arena_compaction_callback_exact exArenaC2 (by decide)⟩

/-- C3 (code evaluation at the failing input): the pool-level `optimize_at`
loop runs only `while (chunk_i <= chunk_j && chunk_j > 0)`, so a pool with a
single chunk is left entirely untouched (no relocation, no callback), while
the chunk's own arena-level compaction would relocate the value at index 2
to index 0 reporting `(2, 0)` — the single-chunk delegation the spec
describes never executes. -/
theorem pool_single_chunk_compaction_skipped :
    free_list.optimize_at 4 exPoolC3 = (exPoolC3, []) ∧
    (inplace_free_list.optimize_at exChunkC3).2 = [(2, 0)] ∧
    inplace_free_list.WF exChunkC3 ∧
    free_list.size exPoolC3 = 1 := by decide

/-- C4: for every sequence of allocate/release requests starting from a
freshly constructed arena, `size() + (number of slots on the free chain) =
capacity()` holds after every operation (the state stays well-formed), and
`capacity()` never changes. -/
theorem arena_sequence_count_invariant {α : Type} (cap : Nat) (hcap : 0 < cap)
    (ops : List (inplace_free_list.Op α)) :
    inplace_free_list.WF
      (inplace_free_list.applyOps (inplace_free_list.init_empty α cap) ops) ∧
    (inplace_free_list.applyOps (inplace_free_list.init_empty α cap) ops).size_ +
      (inplace_free_list.freeChain
        (inplace_free_list.applyOps (inplace_free_list.init_empty α cap) ops)).length =
      (inplace_free_list.applyOps (inplace_free_list.init_empty α cap) ops).capacity ∧
    (inplace_free_list.applyOps (inplace_free_list.init_empty α cap) ops).capacity =
      cap := by
  obtain ⟨hwf, hc⟩ := inplace_free_list.applyOps_WF
    (inplace_free_list.init_empty_WF cap hcap) ops
  refine ⟨hwf, hwf.count, ?_⟩
  rw [hc, inplace_free_list.init_empty_capacity]

theorem arena_sequence_count_invariant_witness :
    0 < 3 ∧
    (inplace_free_list.WF
      (inplace_free_list.applyOps (inplace_free_list.init_empty Nat 3)
        [.alloc 5, .alloc 6, .release 0, .alloc 7]) ∧
    (inplace_free_list.applyOps (inplace_free_list.init_empty Nat 3)
        [.alloc 5, .alloc 6, .release 0, .alloc 7]).size_ +
      (inplace_free_list.freeChain
        (inplace_free_list.applyOps (inplace_free_list.init_empty Nat 3)
          [.alloc 5, .alloc 6, .release 0, .alloc 7])).length =
      (inplace_free_list.applyOps (inplace_free_list.init_empty Nat 3)
        [.alloc 5, .alloc 6, .release 0, .alloc 7]).capacity ∧
    (inplace_free_list.applyOps (inplace_free_list.init_empty Nat 3)
        [.alloc 5, .alloc 6, .release 0, .alloc 7]).capacity = 3) :=
  ⟨by decide, arena_sequence_count_invariant 3 (by decide)
    [.alloc 5, .alloc 6, .release 0, .alloc 7]⟩

/-- C5 counterexample: with chunk capacity 1, inserting 5, 6, 7 and erasing
the values of chunk 1 and then chunk 2 leaves a reachable state whose tail
chunk is empty while the pool still holds one value — erase pops only the
single released chunk and never cascades to an empty chunk uncovered
beneath it. -/
theorem pool_tail_chunk_nonempty_counterexample :
    exPoolC5.chunks_.map inplace_free_list.size = [1, 0] ∧
    free_list.size exPoolC5 = 1 ∧
    free_list.empty exPoolC5 = false := by decide

/-- C5 amended: after an erase whose released chunk becomes empty and is the
last chunk, exactly that one chunk is dropped (the chunk collection becomes
its own `dropLast`, so `capacity()` shrinks by one chunk); an empty chunk
that is not last — including one uncovered by the drop — is kept, so the
tail chunk of a non-empty pool is not necessarily non-empty. -/
theorem pool_erase_drops_last_empty_chunk {α : Type} (CC : Nat)
    (p : free_list α) (k i : Nat) (hk : k + 1 = p.chunks_.length)
    (hempty : ((p.chunks_.getD k (free_list.dfltChunk α)).erase i).size_ = 0) :
    (free_list.erase p k i).chunks_ = p.chunks_.dropLast ∧
    (free_list.erase p k i).chunks_.length = p.chunks_.length - 1 ∧
    free_list.capacity CC (free_list.erase p k i) =
      free_list.capacity CC p - CC := by
  have hres : free_list.erase p k i =
      ⟨(p.chunks_.set k
        ((p.chunks_.getD k (free_list.dfltChunk α)).erase i)).dropLast⟩ := by
    simp only [free_list.erase]
    rw [if_pos]
    exact ⟨hempty, by rw [List.length_set]; exact hk⟩
  rw [hres]
  have hdrop := free_list.dropLast_set_last p.chunks_ k
    ((p.chunks_.getD k (free_list.dfltChunk α)).erase i) hk
  refine ⟨hdrop, ?_, ?_⟩
  · rw [hdrop, List.length_dropLast]
  · show (p.chunks_.set k _).dropLast.length * CC = p.chunks_.length * CC - CC
    rw [hdrop, List.length_dropLast, Nat.sub_one_mul]

theorem pool_erase_drops_last_empty_chunk_witness :
    (2 + 1 = exPoolC5w.chunks_.length) ∧
    (((exPoolC5w.chunks_.getD 2 (free_list.dfltChunk Nat)).erase 0).size_ = 0) ∧
    free_list.capacity 2 exPoolC5w = 6 ∧
    ((free_list.erase exPoolC5w 2 0).chunks_ = exPoolC5w.chunks_.dropLast ∧
     (free_list.erase exPoolC5w 2 0).chunks_.length = exPoolC5w.chunks_.length - 1 ∧
     free_list.capacity 2 (free_list.erase exPoolC5w 2 0) =
       free_list.capacity 2 exPoolC5w - 2) :=
  ⟨by decide, by decide, by decide,
    pool_erase_drops_last_empty_chunk 2 exPoolC5w 2 0 (by decide) (by decide)⟩

/-- C6: `allocate` (`emplace`) reports *full* (null) exactly when the free
chain is empty; otherwise it pops the chain's head, constructs the value in
that slot, increments the count, and returns that slot.  Concretely, the
full capacity-4 arena rejects a fifth value, releasing index 1 leaves
exactly bit 1 set in `free_mask()`, and the next allocation reuses
index 1. -/
theorem arena_allocate_full_iff {α : Type} (a : inplace_free_list α) (v : α)
    (hwf : inplace_free_list.WF a) :
    (a.emplace v = none ↔ inplace_free_list.freeChain a = []) ∧
    (∀ a' i, a.emplace v = some (a', i) →
      (inplace_free_list.freeChain a).head? = some i ∧
      a'.storage_.getD i (Slot.free none) = Slot.val v ∧
      a'.size_ = a.size_ + 1 ∧
      inplace_free_list.freeChain a' = (inplace_free_list.freeChain a).tail ∧
      inplace_free_list.WF a') ∧
    exArenaFull.emplace 9 = none ∧
    inplace_free_list.free_mask (exArenaFull.erase 1) =
      [false, true, false, false] ∧
    Option.map Prod.snd ((exArenaFull.erase 1).emplace 9) = some 1 := by
  refine ⟨?_, ?_, by decide, by decide, by decide⟩
  · rw [inplace_free_list.emplace_eq_none_iff]
    constructor
    · intro h
      unfold inplace_free_list.freeChain
      rw [h, inplace_free_list.chainWalk_none]
      rfl
    · intro h
      rcases hff : a.first_free_ with _ | j
      · rfl
      · exfalso
        have hc := hwf.chain_some
        rw [hff] at hc
        obtain ⟨nxt, rest, _, _, hcons⟩ := inplace_free_list.chainWalk_some_elim hc
        rw [h] at hcons
        cases hcons
  · intro a' i h
    obtain ⟨hff, hcons, hstor, hsz, hcap, hwf'⟩ :=
      inplace_free_list.emplace_spec hwf h
    have hmem : i ∈ inplace_free_list.freeChain a := by
      rw [hcons]; exact List.mem_cons_self ..
    have hilt : i < a.capacity := inplace_free_list.mem_freeChain_lt hmem
    refine ⟨by rw [hcons]; rfl, ?_, hsz, by rw [hcons]; rfl, hwf'⟩
    rw [hstor]
    exact getD_set_self _ _ _ _ hilt

theorem arena_allocate_full_iff_witness :
    inplace_free_list.WF exArenaFull ∧
    ((exArenaFull.emplace 9 = none ↔
      inplace_free_list.freeChain exArenaFull = []) ∧
    (∀ a' i, exArenaFull.emplace 9 = some (a', i) →
      (inplace_free_list.freeChain exArenaFull).head? = some i ∧
      a'.storage_.getD i (Slot.free none) = Slot.val 9 ∧
      a'.size_ = exArenaFull.size_ + 1 ∧
      inplace_free_list.freeChain a' =
        (inplace_free_list.freeChain exArenaFull).tail ∧
      inplace_free_list.WF a') ∧
    exArenaFull.emplace 9 = none ∧
    inplace_free_list.free_mask (exArenaFull.erase 1) =
      [false, true, false, false] ∧
    Option.map Prod.snd ((exArenaFull.erase 1).emplace 9) = some 1) :=
  ⟨by decide, arena_allocate_full_iff exArenaFull 9 (by decide)⟩

/-- C7: reading back a freshly inserted value through its index yields an
equal value, and `at` on an erased index reports the out-of-range/occupancy
failure (modelled as `none`) instead of stale data. -/
theorem arena_at_roundtrip {α : Type} (a : inplace_free_list α) (v : α)
    (hwf : inplace_free_list.WF a) :
    (∀ a' i, a.emplace v = some (a', i) →
      inplace_free_list.at_idx a' i = some v) ∧
    (∀ i, i < a.capacity →
      isFreeSlot (a.storage_.getD i (Slot.free none)) = false →
      inplace_free_list.at_idx (a.erase i) i = none) := by
  constructor
  · intro a' i h
    obtain ⟨hff, hcons, hstor, hsz, hcap, hwf'⟩ :=
      inplace_free_list.emplace_spec hwf h
    have hmem : i ∈ inplace_free_list.freeChain a := by
      rw [hcons]; exact List.mem_cons_self ..
    have hilt : i < a.capacity := inplace_free_list.mem_freeChain_lt hmem
    have hnodup := hwf.nodup
    rw [hcons] at hnodup
    have hnotin : i ∉ inplace_free_list.freeChain a' :=
      (List.nodup_cons.mp hnodup).1
    unfold inplace_free_list.at_idx
    rw [if_pos (by rw [hcap]; exact hilt), if_neg hnotin, hstor,
      getD_set_self _ _ _ _ hilt]
    rfl
  · intro i hi hocc
    obtain ⟨hchain, _, _, hcap, _⟩ := inplace_free_list.erase_spec hwf hi hocc
    unfold inplace_free_list.at_idx
    rw [if_pos (by rw [hcap]; exact hi), if_pos]
    rw [hchain]
    exact List.mem_cons_self ..

theorem arena_at_roundtrip_witness :
    inplace_free_list.WF exArenaC7 ∧
    ((∀ a' i, exArenaC7.emplace 9 = some (a', i) →
      inplace_free_list.at_idx a' i = some 9) ∧
    (∀ i, i < exArenaC7.capacity →
      isFreeSlot (exArenaC7.storage_.getD i (Slot.free none)) = false →
      inplace_free_list.at_idx (exArenaC7.erase i) i = none)) :=
  ⟨by decide, arena_at_roundtrip exArenaC7 9 (by decide)⟩

/-- C8 (code evaluation at the failing input): `emplace` pops `first_free_`
to the head's link before `construct_at`, so when construction of the value
throws on the fresh capacity-2 arena, the popped slot is on neither the free
chain nor the occupied side: `size() + (free slots)` drops to 1 against a
capacity of 2, and the arena is no longer well-formed — the slot is leaked
instead of remaining on the free chain as the spec requires. -/
theorem arena_emplace_throw_leaks_slot :
    inplace_free_list.WF (inplace_free_list.init_empty Nat 2) ∧
    (inplace_free_list.emplace_throw (inplace_free_list.init_empty Nat 2)).size_ +
      (inplace_free_list.freeChain
        (inplace_free_list.emplace_throw (inplace_free_list.init_empty Nat 2))).length
      = 1 ∧
    (inplace_free_list.emplace_throw (inplace_free_list.init_empty Nat 2)).capacity
      = 2 ∧
    ¬ inplace_free_list.WF
      (inplace_free_list.emplace_throw (inplace_free_list.init_empty Nat 2)) := by
  decide

/-- C9 counterexample: for 4-byte values and `Capacity = 10` the code picks
a 16-bit link (`sizeof(T) == 1 ? uint8 : uint16`), while the smallest
unsigned width representing indices `0..10` plus a sentinel is 8 bits. -/
theorem offset_width_not_smallest :
    ¬ (offset_width 4 = smallest_offset_width 10) := by decide

/-- C9 amended: the link width is 8 bits exactly for 1-byte values and
16 bits otherwise — not in general the smallest width for the capacity —
and whenever the static assertion `Capacity < npos` holds, the chosen width
represents every index `0..Capacity` plus the sentinel, the sentinel being
strictly above `Capacity`. -/
theorem offset_width_adequate (sizeofT cap : Nat)
    (h : cap < offset_npos (offset_width sizeofT)) :
    (offset_width sizeofT = if sizeofT = 1 then 8 else 16) ∧
    (∀ i, i ≤ cap → i < 2 ^ offset_width sizeofT) ∧
    offset_npos (offset_width sizeofT) < 2 ^ offset_width sizeofT := by
  have h8 : (2 : Nat) ^ 8 = 256 := by norm_num
  have h16 : (2 : Nat) ^ 16 = 65536 := by norm_num
  unfold offset_width offset_npos at h ⊢
  by_cases h1 : sizeofT = 1
  · simp only [h1, if_true] at h ⊢
    exact ⟨trivial, fun i hi => by omega, by omega⟩
  · simp only [h1, if_false] at h ⊢
    exact ⟨trivial, fun i hi => by omega, by omega⟩

theorem offset_width_adequate_witness :
    10 < offset_npos (offset_width 4) ∧
    ((offset_width 4 = if 4 = 1 then 8 else 16) ∧
    (∀ i, i ≤ 10 → i < 2 ^ offset_width 4) ∧
    offset_npos (offset_width 4) < 2 ^ offset_width 4) :=
  ⟨by decide, offset_width_adequate 4 10 (by decide)⟩

/-- C10: after move-construction or move-assignment the source arena is the
freshly constructed empty state: `size()` is 0, `empty()` is true, the free
mask has all `Capacity` bits set, and the free chain visits all slots in
ascending order. -/
theorem arena_move_source_reinitialized {α : Type} (a : inplace_free_list α) :
    ((inplace_free_list.move_from a).2).size_ = 0 ∧
    ((inplace_free_list.move_from a).2).empty = true ∧
    inplace_free_list.freeChain ((inplace_free_list.move_from a).2) =
      List.range a.capacity ∧
    inplace_free_list.free_mask ((inplace_free_list.move_from a).2) =
      List.replicate a.capacity true := by
  have h2 : (inplace_free_list.move_from a).2 =
      inplace_free_list.init_empty α a.capacity := rfl
  rw [h2]
  by_cases hcap : 0 < a.capacity
  · have hchain := inplace_free_list.init_empty_freeChain (α := α) a.capacity hcap
    refine ⟨rfl, rfl, hchain, ?_⟩
    unfold inplace_free_list.free_mask
    rw [inplace_free_list.init_empty_capacity, hchain]
    have hmem : ∀ i ∈ List.range a.capacity,
        (fun i => decide (i ∈ List.range a.capacity)) i = (fun _ => true) i := by
      intro i hi
      simp [hi]
    rw [List.map_congr_left hmem, List.map_const', List.length_range]
  · have hc0 : a.capacity = 0 := by omega
    rw [hc0]
    refine ⟨rfl, rfl, ?_, ?_⟩
    · show (inplace_free_list.chainWalk
        (inplace_free_list.init_empty α 0).storage_ (some 0) _).getD [] = _
      simp [inplace_free_list.init_empty, inplace_free_list.chainWalk,
        inplace_free_list.capacity]
    · simp [inplace_free_list.free_mask, inplace_free_list.init_empty,
        inplace_free_list.capacity]

end Fox
